import Mathlib

/-!
# Weakest-precondition calculus of `mm` (AST.h)

A shallow embedding of the expression and statement classes of `src/AST.h`
and of the operations `Copy`, `Replace`, `dump`, `forAllVars` and
`WeakestPrecondition`, followed by theorems about them.

Conventions of the embedding:
* a pointer to a node is the node's value (the trees are never mutated);
* the class hierarchy `Expr > Var > {IntVar, BVVar}`, `Expr > Const >
  {IntConst, BVConst, BoolConst}` becomes nested sum types;
* `std::ostream &Out` is the text written so far, and writing appends to it;
* the visitor `std::function<void(std::string)>` acts on an explicit state.
-/

namespace mm

/-- Class `Var` with its two concrete subclasses `IntVar` and `BVVar`;
the only field is `Name`. -/
inductive Var where
  | IntVar (Name : String)
  | BVVar (Name : String)
  deriving DecidableEq, Repr

/-- Field `Var::Name` (`getName`). -/
def Var.Name : Var → String
  | .IntVar n => n
  | .BVVar n => n

/-- Class `Const` with its subclasses; `IntConst` holds an `int`,
`BVConst` an `unsigned int`, `BoolConst` a `bool`. -/
inductive Const where
  | IntConst (Value : Int)
  | BVConst (Value : Nat)
  | BoolConst (Value : Bool)
  deriving DecidableEq, Repr

/-- Class `Expr` and its subclasses. -/
inductive Expr where
  | Var (v : Var)
  | Const (c : Const)
  | BinaryExpr (Op : String) (Left Right : Expr) (isBool : Bool)
  | UnaryExpr (Op : String) (SubExpr : Expr) (isBool : Bool)
  | UFExpr (FName : String) (SubExprs : List Expr)
  deriving Repr

/-- Class `Stmt` and its subclasses. -/
inductive Stmt where
  | AssignStmt (LValue : Var) (RValue : Expr)
  | SeqStmt (Statements : List Stmt)
  | CondStmt (Condition : Expr) (TrueStmt FalseStmt : Stmt)
  deriving Repr

/-- Methods `IntVar::Copy` and `BVVar::Copy`: a new node of the same class and name. -/
def Var.Copy : Var → Var
  | .IntVar Name => .IntVar Name
  | .BVVar Name => .BVVar Name

/-- Method `Const::Copy`: returns `this`. -/
def Const.Copy (c : Const) : Const := c

/-- Method `Copy` of the composite nodes: `BinaryExpr`, `UnaryExpr` and `UFExpr` build a new node
holding the same fields (the children are shared, not copied). -/
def Expr.Copy : Expr → Expr
  | .Var v => .Var v.Copy
  | .Const c => .Const c.Copy
  | .BinaryExpr Op Left Right isBool => .BinaryExpr Op Left Right isBool
  | .UnaryExpr Op SubExpr isBool => .UnaryExpr Op SubExpr isBool
  | .UFExpr FName SubExprs => .UFExpr FName SubExprs

mutual
/-- Method `Replace(Variable, Expression)`: a `Var` whose name equals
`Variable->Name` returns `Expression->Copy()` and any other `Var` its own
copy; a `Const` returns `this`; the composite nodes rebuild themselves from
their replaced children, keeping `Op`, `isBool` and `FName`. -/
def Expr.Replace : Expr → mm.Var → Expr → Expr
  | .Var v, Variable, Expression =>
      if Variable.Name = v.Name then Expression.Copy else (Expr.Var v).Copy
  | .Const c, _, _ => .Const c
  | .BinaryExpr Op Left Right isBool, Variable, Expression =>
      .BinaryExpr Op (Left.Replace Variable Expression)
        (Right.Replace Variable Expression) isBool
  | .UnaryExpr Op SubExpr isBool, Variable, Expression =>
      .UnaryExpr Op (SubExpr.Replace Variable Expression) isBool
  | .UFExpr FName SubExprs, Variable, Expression =>
      .UFExpr FName (Expr.ReplaceAll SubExprs Variable Expression)
/-- The loop of `UFExpr::Replace`: `NewExprs.push_back(E->Replace(..))` for
each `E` of `SubExprs`, in order. -/
def Expr.ReplaceAll : List Expr → mm.Var → Expr → List Expr
  | [], _, _ => []
  | E :: Es, Variable, Expression =>
      E.Replace Variable Expression :: Expr.ReplaceAll Es Variable Expression
end

/-- Methods `IntConst::dump`, `BVConst::dump`, `BoolConst::dump`. The
stream operator `Out << Value` on an `int` or `unsigned int` is rendered by
`toString`. -/
def Const.dump : Const → String → String
  | .IntConst Value, Out => Out ++ toString Value
  | .BVConst Value, Out => (Out ++ "BV:") ++ toString Value
  | .BoolConst Value, Out => Out ++ (if Value then "true" else "false")

mutual
/-- Method `dump(Out)`: the stream after the node has been written. -/
def Expr.dump : Expr → String → String
  | .Var v, Out => Out ++ v.Name
  | .Const c, Out => c.dump Out
  | .BinaryExpr Op Left Right _, Out =>
      (Right.dump ((Left.dump (Out ++ "(")) ++ Op)) ++ ")"
  | .UnaryExpr Op SubExpr _, Out =>
      (SubExpr.dump ((Out ++ "(") ++ Op)) ++ ")"
  | .UFExpr FName SubExprs, Out =>
      ((Expr.dumpArgs SubExprs ((Out ++ FName) ++ "(")) ++ "\x08") ++ ")"
/-- The loop of `UFExpr::dump`: each argument is written and then `","`. -/
def Expr.dumpArgs : List Expr → String → String
  | [], Out => Out
  | SubExpr :: rest, Out => Expr.dumpArgs rest ((SubExpr.dump Out) ++ ",")
end

mutual
/-- Method `forAllVars(F)`: the visitor's state after the traversal. -/
def Expr.forAllVars {σ : Type} (F : String → σ → σ) : Expr → σ → σ
  | .Var v, s => F v.Name s
  | .Const _, s => s
  | .BinaryExpr _ Left Right _, s => Right.forAllVars F (Left.forAllVars F s)
  | .UnaryExpr _ SubExpr _, s => SubExpr.forAllVars F s
  | .UFExpr FName SubExprs, s => Expr.forAllVarsArgs F SubExprs (F FName s)
/-- The loop of `UFExpr::forAllVars` over `SubExprs`. -/
def Expr.forAllVarsArgs {σ : Type} (F : String → σ → σ) : List Expr → σ → σ
  | [], s => s
  | SubExpr :: rest, s => Expr.forAllVarsArgs F rest (SubExpr.forAllVars F s)
end

/-- Method `WeakestPrecondition(Post)`. `CondStmt` passes `true` for
`isBool` to the `&&` node only; the other three constructor calls leave out
the argument, whose default is `false`. The loop of `SeqStmt` runs over the
statements from `rbegin()` to `rend()`, threading `Cur`: a left fold over
the reversed vector (`attach` only supplies the membership proof that the
termination argument needs). -/
def Stmt.WeakestPrecondition : Stmt → Expr → Expr
  | .AssignStmt LValue RValue, Post => Post.Replace LValue RValue
  | .SeqStmt Statements, Post =>
      Statements.reverse.attach.foldl
        (fun Cur Statement => Statement.1.WeakestPrecondition Cur) Post
  | .CondStmt Condition TrueStmt FalseStmt, Post =>
      .BinaryExpr "&&"
        (.BinaryExpr "->" Condition (TrueStmt.WeakestPrecondition Post) false)
        (.BinaryExpr "->" (.UnaryExpr "!" Condition false)
          (FalseStmt.WeakestPrecondition Post) false) true
termination_by s _ => sizeOf s
decreasing_by
  · have h := List.sizeOf_lt_of_mem (List.mem_reverse.mp Statement.2)
    simp_wf
    omega
  all_goals (simp_wf; try omega)

/-! ## Solver terms and translation

The solver library `cvc4/cvc4.h` is used through `ExprManager` only. Its
terms are embedded as the tree of the calls that built them; `mkVar` makes
a new variable at every call, which the embedding records by numbering the
variables in the order of their creation. -/

namespace CVC4

/-- Class `CVC4::Type`, as built by `integerType()`, `mkBitVectorType(size)`,
`booleanType()` and `mkFunctionType(argTypes, range)`. -/
inductive Type_ where
  | integerType
  | mkBitVectorType (size : Nat)
  | booleanType
  | mkFunctionType (argTypes : List Type_) (range : Type_)

/-- Enumeration `CVC4::Kind`: `APPLY_UF` is the only kind named in `AST.h`;
`operator` stands for any other kind. -/
inductive Kind where
  | APPLY_UF
  | operator (name : String)

/-- Class `CVC4::Expr`: the default-constructed null expression, a variable
made by `mkVar` (`id` tells the calls of `mkVar` apart), the constants made
by `mkConst` from a `Rational`, a `BitVector(size, value)` or a `bool`, and
`mkExpr(kind, child1, otherChildren)`. -/
inductive Expr where
  | null
  | mkVar (id : Nat) (name : String) (type : Type_)
  | mkConstRational (value : Int)
  | mkConstBitVector (size : Nat) (value : Nat)
  | mkConstBool (value : Bool)
  | mkExpr (kind : Kind) (child1 : Expr) (otherChildren : List Expr)

/-- Class `CVC4::ExprManager`, reduced to the number of variables it has
made so far. -/
structure ExprManager where
  numVars : Nat

/-- Call `EM.mkVar(name, type)`: the new variable and the manager afterwards. -/
def ExprManager.mkVar (EM : ExprManager) (name : String) (type : Type_) :
    Expr × ExprManager :=
  (.mkVar EM.numVars name type, ⟨EM.numVars + 1⟩)

end CVC4

/-- Type `std::unordered_map<std::string, CVC4::Expr>` of the intern table
`VARS`: a finite map, given by the value bound to each key. -/
abbrev UnorderedMap : Type := String → Option CVC4.Expr

/-- Call `VARS.find(Name)`: the bound value, `none` standing for `VARS.end()`. -/
def UnorderedMap.find (VARS : UnorderedMap) (Name : String) : Option CVC4.Expr :=
  VARS Name

/-- Assignment `VARS[Name] = value`. -/
def UnorderedMap.assign (VARS : UnorderedMap) (Name : String)
    (value : CVC4.Expr) : UnorderedMap :=
  fun k => if k = Name then some value else VARS k

/-- Read of `VARS[Name]`: the bound value; a missing key is first bound to
the default-constructed (null) expression. -/
def UnorderedMap.index (VARS : UnorderedMap) (Name : String) :
    CVC4.Expr × UnorderedMap :=
  match VARS Name with
  | some value => (value, VARS)
  | none => (.null, VARS.assign Name .null)

/-- What a call of `Translate` leaves: the returned term, and the expression
manager and the table after the call. -/
structure Translated where
  result : CVC4.Expr
  EM : CVC4.ExprManager
  VARS : UnorderedMap

/-- The two `Translate` methods that `AST.h` only declares,
`BinaryExpr::Translate` and `UnaryExpr::Translate`: their bodies are
defined outside `AST.h`, so they are taken as arbitrary functions of the
node's fields, the expression manager and the table. -/
structure DeclaredOnly where
  binaryTranslate : String → Expr → Expr → Bool →
    CVC4.ExprManager → UnorderedMap → Translated
  unaryTranslate : String → Expr → Bool →
    CVC4.ExprManager → UnorderedMap → Translated

mutual
/-- Method `Translate(EM, VARS)` of `IntVar`, `BVVar`, `IntConst`, `BVConst`,
`BoolConst` and `UFExpr`. -/
def Expr.Translate (D : DeclaredOnly) :
    Expr → CVC4.ExprManager → UnorderedMap → Translated
  | .Var (.IntVar Name), EM, VARS =>
      let st : CVC4.ExprManager × UnorderedMap :=
        if (VARS.find Name).isNone then
          let made := EM.mkVar Name .integerType
          (made.2, VARS.assign Name made.1)
        else (EM, VARS)
      let read := st.2.index Name
      ⟨read.1, st.1, read.2⟩
  | .Var (.BVVar Name), EM, VARS =>
      let st : CVC4.ExprManager × UnorderedMap :=
        if (VARS.find Name).isNone then
          let made := EM.mkVar Name (.mkBitVectorType 32)
          (made.2, VARS.assign Name made.1)
        else (EM, VARS)
      let read := st.2.index Name
      ⟨read.1, st.1, read.2⟩
  | .Const (.IntConst Value), EM, VARS => ⟨.mkConstRational Value, EM, VARS⟩
  | .Const (.BVConst Value), EM, VARS => ⟨.mkConstBitVector 32 Value, EM, VARS⟩
  | .Const (.BoolConst Value), EM, VARS => ⟨.mkConstBool Value, EM, VARS⟩
  | .BinaryExpr Op Left Right isBool, EM, VARS =>
      D.binaryTranslate Op Left Right isBool EM VARS
  | .UnaryExpr Op SubExpr isBool, EM, VARS =>
      D.unaryTranslate Op SubExpr isBool EM VARS
  | .UFExpr FName SubExprs, EM, VARS =>
      let st : CVC4.ExprManager × UnorderedMap :=
        if (VARS.find FName).isNone then
          let integer := CVC4.Type_.integerType
          let types := List.replicate SubExprs.length integer
          let ftype := CVC4.Type_.mkFunctionType types integer
          let made := EM.mkVar FName ftype
          (made.2, VARS.assign FName made.1)
        else (EM, VARS)
      let args := Expr.TranslateArgs D SubExprs st.1 st.2
      let read := args.2.2.index FName
      ⟨.mkExpr .APPLY_UF read.1 args.1, args.2.1, read.2⟩
/-- The loop of `UFExpr::Translate`:
`CVC4SubExprs.push_back(SE->Translate(EM, VARS))` for each `SE` of
`SubExprs`, in order; returns `CVC4SubExprs`, the manager and the table. -/
def Expr.TranslateArgs (D : DeclaredOnly) :
    List Expr → CVC4.ExprManager → UnorderedMap →
      List CVC4.Expr × CVC4.ExprManager × UnorderedMap
  | [], EM, VARS => ([], EM, VARS)
  | SE :: rest, EM, VARS =>
      let first := SE.Translate D EM VARS
      let others := Expr.TranslateArgs D rest first.EM first.VARS
      (first.result :: others.1, others.2.1, others.2.2)
end

/-! ## The recursions under a bound on their depth

The same methods, run with a budget `fuel` for the depth of nested calls:
every call takes one unit and passes what is left to the calls it makes;
`none` means that the budget ran out before the method returned. -/

/-- Method `Replace(Variable, Expression)` under a bound on the depth of
the recursion. -/
def Expr.ReplaceWithin : Nat → Expr → mm.Var → Expr → Option Expr
  | 0, _, _, _ => none
  | _ + 1, .Var v, Variable, Expression =>
      some (if Variable.Name = v.Name then Expression.Copy else (Expr.Var v).Copy)
  | _ + 1, .Const c, _, _ => some (.Const c)
  | fuel + 1, .BinaryExpr Op Left Right isBool, Variable, Expression =>
      (Expr.ReplaceWithin fuel Left Variable Expression).bind fun NewLeft =>
      (Expr.ReplaceWithin fuel Right Variable Expression).bind fun NewRight =>
      some (.BinaryExpr Op NewLeft NewRight isBool)
  | fuel + 1, .UnaryExpr Op SubExpr isBool, Variable, Expression =>
      (Expr.ReplaceWithin fuel SubExpr Variable Expression).bind fun NewSub =>
      some (.UnaryExpr Op NewSub isBool)
  | fuel + 1, .UFExpr FName SubExprs, Variable, Expression =>
      (SubExprs.mapM fun E => Expr.ReplaceWithin fuel E Variable Expression).bind
        fun NewExprs => some (.UFExpr FName NewExprs)

/-- Method `WeakestPrecondition(Post)` under a bound on the depth of the
recursion, the calls of `Replace` included. -/
def Stmt.WeakestPreconditionWithin : Nat → Stmt → Expr → Option Expr
  | 0, _, _ => none
  | fuel + 1, .AssignStmt LValue RValue, Post =>
      Post.ReplaceWithin fuel LValue RValue
  | fuel + 1, .SeqStmt Statements, Post =>
      Statements.reverse.foldlM
        (fun Cur Statement => Stmt.WeakestPreconditionWithin fuel Statement Cur)
        Post
  | fuel + 1, .CondStmt Condition TrueStmt FalseStmt, Post =>
      (Stmt.WeakestPreconditionWithin fuel TrueStmt Post).bind fun WPTrue =>
      (Stmt.WeakestPreconditionWithin fuel FalseStmt Post).bind fun WPFalse =>
      some (.BinaryExpr "&&"
        (.BinaryExpr "->" Condition WPTrue false)
        (.BinaryExpr "->" (.UnaryExpr "!" Condition false) WPFalse false) true)

/-! ## Notions used to state the properties -/

mutual
/-- Whether the expression is built from variables, constants and function
applications only, the nodes whose `Translate` is defined in `AST.h`. -/
def Expr.operatorFree : Expr → Bool
  | .Var _ => true
  | .Const _ => true
  | .BinaryExpr _ _ _ _ => false
  | .UnaryExpr _ _ _ => false
  | .UFExpr _ SubExprs => Expr.operatorFreeArgs SubExprs
/-- The same for every expression of a list. -/
def Expr.operatorFreeArgs : List Expr → Bool
  | [] => true
  | E :: Es => E.operatorFree && Expr.operatorFreeArgs Es
end

/-- The empty intern table. -/
def UnorderedMap.empty : UnorderedMap := fun _ => none

/-- A stand-in for the two declared-only methods, for examples in which no
binary or unary node is translated: it returns the null expression and
leaves the manager and the table as they are. -/
def DeclaredOnly.unused : DeclaredOnly where
  binaryTranslate := fun _ _ _ _ EM VARS => ⟨.null, EM, VARS⟩
  unaryTranslate := fun _ _ _ EM VARS => ⟨.null, EM, VARS⟩

/-- The two declared-only methods keep the bindings of the table: a name
bound before the call is bound to the same term after it. -/
def DeclaredOnly.KeepsBindings (D : DeclaredOnly) : Prop :=
  (∀ (Op : String) (Left Right : Expr) (isBool : Bool)
      (EM : CVC4.ExprManager) (VARS : UnorderedMap) (k : String)
      (t : CVC4.Expr), VARS k = some t →
      (D.binaryTranslate Op Left Right isBool EM VARS).VARS k = some t)
  ∧ (∀ (Op : String) (SubExpr : Expr) (isBool : Bool)
      (EM : CVC4.ExprManager) (VARS : UnorderedMap) (k : String)
      (t : CVC4.Expr), VARS k = some t →
      (D.unaryTranslate Op SubExpr isBool EM VARS).VARS k = some t)

/-- An example of the two declared-only methods: the operands are
translated from left to right (operators nested in them by `D`) and the
solver operator named by `Op` is applied to the results. -/
def DeclaredOnly.viaOperands (D : DeclaredOnly) : DeclaredOnly where
  binaryTranslate := fun Op Left Right _ EM VARS =>
    let l := Left.Translate D EM VARS
    let r := Right.Translate D l.EM l.VARS
    ⟨.mkExpr (.operator Op) l.result [r.result], r.EM, r.VARS⟩
  unaryTranslate := fun Op SubExpr _ EM VARS =>
    let x := SubExpr.Translate D EM VARS
    ⟨.mkExpr (.operator Op) x.result [], x.EM, x.VARS⟩


mutual
/-- Whether a variable node named `n` occurs in the expression (under
binary and unary operators and among the arguments of applications). -/
def Expr.hasVar (n : String) : Expr → Bool
  | .Var v => decide (v.Name = n)
  | .Const _ => false
  | .BinaryExpr _ Left Right _ => Left.hasVar n || Right.hasVar n
  | .UnaryExpr _ SubExpr _ => SubExpr.hasVar n
  | .UFExpr _ SubExprs => Expr.hasVarArgs n SubExprs
/-- Whether a variable node named `n` occurs in one of the expressions. -/
def Expr.hasVarArgs (n : String) : List Expr → Bool
  | [] => false
  | E :: Es => E.hasVar n || Expr.hasVarArgs n Es
end

/-- The sequence of names `forAllVars` passes to its visitor, recorded by
the visitor that appends each name to a list. -/
def Expr.visited (E : Expr) : List String :=
  E.forAllVars (fun n acc => acc ++ [n]) []

/-- One call of the visitor, tagged with the kind of node that made it: a
variable node or a function application. -/
inductive Visit where
  | var (Name : String)
  | fn (FName : String)
  deriving DecidableEq, Repr

/-- The name passed to the visitor. -/
def Visit.name : Visit → String
  | .var Name => Name
  | .fn FName => FName

mutual
/-- The visits of `forAllVars` in order, each tagged with its origin. -/
def Expr.visits : Expr → List Visit
  | .Var v => [.var v.Name]
  | .Const _ => []
  | .BinaryExpr _ Left Right _ => Left.visits ++ Right.visits
  | .UnaryExpr _ SubExpr _ => SubExpr.visits
  | .UFExpr FName SubExprs => .fn FName :: Expr.visitsArgs SubExprs
/-- The tagged visits of a list of arguments, in argument order. -/
def Expr.visitsArgs : List Expr → List Visit
  | [] => []
  | E :: Es => E.visits ++ Expr.visitsArgs Es
end

/-- What one visit on `E` becomes on `E.Replace(x, e)`, where `ve` is the
sequence visited on `e`: a visit made by a variable node named `x` becomes
`ve`, any other visit is kept. -/
def Visit.subst (x : String) (ve : List String) : Visit → List String
  | .var Name => if Name = x then ve else [Name]
  | .fn FName => [FName]

/-- Each text followed by a comma, concatenated. -/
def commaTerminated : List String → String
  | [] => ""
  | t :: ts => (t ++ ",") ++ commaTerminated ts

/-- The decimal numeral of a natural number: its base-10 digits, most
significant first, and `0` for zero. -/
def decimalNumeral (n : Nat) : String :=
  if n = 0 then "0" else String.mk ((Nat.digits 10 n).reverse.map Nat.digitChar)

/-- The decimal numeral of an integer: a leading `-` when it is negative. -/
def signedDecimal (v : Int) : String :=
  if v < 0 then "-" ++ decimalNumeral v.natAbs else decimalNumeral v.natAbs

mutual
/-- Number of variable nodes of an expression. -/
def Expr.numVarNodes : Expr → Nat
  | .Var _ => 1
  | .Const _ => 0
  | .BinaryExpr _ Left Right _ => Left.numVarNodes + Right.numVarNodes
  | .UnaryExpr _ SubExpr _ => SubExpr.numVarNodes
  | .UFExpr _ SubExprs => Expr.numVarNodesArgs SubExprs
/-- Number of variable nodes in a list of expressions. -/
def Expr.numVarNodesArgs : List Expr → Nat
  | [] => 0
  | E :: Es => E.numVarNodes + Expr.numVarNodesArgs Es
end

mutual
/-- Number of function-application nodes of an expression. -/
def Expr.numUFNodes : Expr → Nat
  | .Var _ => 0
  | .Const _ => 0
  | .BinaryExpr _ Left Right _ => Left.numUFNodes + Right.numUFNodes
  | .UnaryExpr _ SubExpr _ => SubExpr.numUFNodes
  | .UFExpr _ SubExprs => 1 + Expr.numUFNodesArgs SubExprs
/-- Number of function-application nodes in a list of expressions. -/
def Expr.numUFNodesArgs : List Expr → Nat
  | [] => 0
  | E :: Es => E.numUFNodes + Expr.numUFNodesArgs Es
end

mutual
/-- Number of nodes of an expression tree. -/
def Expr.numNodes : Expr → Nat
  | .Var _ => 1
  | .Const _ => 1
  | .BinaryExpr _ Left Right _ => 1 + Left.numNodes + Right.numNodes
  | .UnaryExpr _ SubExpr _ => 1 + SubExpr.numNodes
  | .UFExpr _ SubExprs => 1 + Expr.numNodesArgs SubExprs
/-- Number of nodes of a list of expression trees. -/
def Expr.numNodesArgs : List Expr → Nat
  | [] => 0
  | E :: Es => E.numNodes + Expr.numNodesArgs Es
end

mutual
/-- Number of statement nodes of a statement tree. -/
def Stmt.numStmts : Stmt → Nat
  | .AssignStmt _ _ => 1
  | .SeqStmt Statements => 1 + Stmt.numStmtsAll Statements
  | .CondStmt _ TrueStmt FalseStmt => 1 + TrueStmt.numStmts + FalseStmt.numStmts
/-- Number of statement nodes of a list of statement trees. -/
def Stmt.numStmtsAll : List Stmt → Nat
  | [] => 0
  | s :: ss => s.numStmts + Stmt.numStmtsAll ss
end

mutual
/-- Nesting depth of the conditionals of a statement. -/
def Stmt.condDepth : Stmt → Nat
  | .AssignStmt _ _ => 0
  | .SeqStmt Statements => Stmt.condDepthAll Statements
  | .CondStmt _ TrueStmt FalseStmt => 1 + max TrueStmt.condDepth FalseStmt.condDepth
/-- The largest nesting depth among a list of statements. -/
def Stmt.condDepthAll : List Stmt → Nat
  | [] => 0
  | s :: ss => max s.condDepth (Stmt.condDepthAll ss)
end

/-- The statements `S_0 = SeqStmt([])`, `S_(k+1) = CondStmt(c, S_k, S_k)`. -/
def nestedCond (c : Expr) : Nat → Stmt
  | 0 => .SeqStmt []
  | k + 1 => .CondStmt c (nestedCond c k) (nestedCond c k)

mutual
/-- Whether every variable node of the expression that is named like `x`
is `x` itself, that is, has the sort of `x`. -/
def Expr.sameSortAs (x : mm.Var) : Expr → Bool
  | .Var v => decide (v.Name = x.Name → v = x)
  | .Const _ => true
  | .BinaryExpr _ Left Right _ => Left.sameSortAs x && Right.sameSortAs x
  | .UnaryExpr _ SubExpr _ => SubExpr.sameSortAs x
  | .UFExpr _ SubExprs => Expr.sameSortAsArgs x SubExprs
/-- The same for every expression of a list. -/
def Expr.sameSortAsArgs (x : mm.Var) : List Expr → Bool
  | [] => true
  | E :: Es => E.sameSortAs x && Expr.sameSortAsArgs x Es
end

/-! ## Shared lemmas -/

theorem Var.Copy_var_eq (v : Var) : v.Copy = v := by
  cases v <;> rfl

theorem Expr.Copy_eq (E : Expr) : E.Copy = E := by
  cases E <;> simp [Expr.Copy, Var.Copy_var_eq, Const.Copy]

theorem Const.dump_const_eq_append (c : Const) (Out : String) :
    c.dump Out = Out ++ c.dump "" := by
  cases c <;> simp [Const.dump, String.append_assoc]

mutual
theorem Expr.dump_eq_append :
    ∀ (E : Expr) (Out : String), E.dump Out = Out ++ E.dump ""
  | .Var v, Out => by simp [Expr.dump]
  | .Const c, Out => by simpa [Expr.dump] using Const.dump_const_eq_append c Out
  | .BinaryExpr Op Left Right b, Out => by
      simp only [Expr.dump]
      rw [Expr.dump_eq_append Right, Expr.dump_eq_append Left,
        Expr.dump_eq_append Right (Left.dump ("" ++ "(") ++ Op),
        Expr.dump_eq_append Left ("" ++ "(")]
      simp [String.append_assoc]
  | .UnaryExpr Op SubExpr b, Out => by
      simp only [Expr.dump]
      rw [Expr.dump_eq_append SubExpr,
        Expr.dump_eq_append SubExpr (("" ++ "(") ++ Op)]
      simp [String.append_assoc]
  | .UFExpr FName SubExprs, Out => by
      simp only [Expr.dump]
      rw [Expr.dumpArgs_eq_append SubExprs,
        Expr.dumpArgs_eq_append SubExprs (("" ++ FName) ++ "(")]
      simp [String.append_assoc]
theorem Expr.dumpArgs_eq_append :
    ∀ (Es : List Expr) (Out : String),
      Expr.dumpArgs Es Out = Out ++ Expr.dumpArgs Es ""
  | [], Out => by simp [Expr.dumpArgs]
  | E :: Es, Out => by
      simp only [Expr.dumpArgs]
      rw [Expr.dumpArgs_eq_append Es, Expr.dump_eq_append E,
        Expr.dumpArgs_eq_append Es (E.dump "" ++ ",")]
      simp [String.append_assoc]
end

theorem Stmt.WeakestPrecondition_assign (x : Var) (e Post : Expr) :
    (Stmt.AssignStmt x e).WeakestPrecondition Post = Post.Replace x e := by
  simp [Stmt.WeakestPrecondition]

theorem Stmt.WeakestPrecondition_seq (ss : List Stmt) (Post : Expr) :
    (Stmt.SeqStmt ss).WeakestPrecondition Post
      = ss.reverse.foldl (fun Cur s => s.WeakestPrecondition Cur) Post := by
  rw [Stmt.WeakestPrecondition]
  generalize ss.reverse = l
  conv_rhs => rw [← List.attach_map_subtype_val l, List.foldl_map]

theorem Stmt.WeakestPrecondition_cond (c : Expr) (St Sf : Stmt) (Post : Expr) :
    (Stmt.CondStmt c St Sf).WeakestPrecondition Post
      = .BinaryExpr "&&"
          (.BinaryExpr "->" c (St.WeakestPrecondition Post) false)
          (.BinaryExpr "->" (.UnaryExpr "!" c false)
            (Sf.WeakestPrecondition Post) false) true := by
  rw [Stmt.WeakestPrecondition]

/-! ## Assignment, sequence and conditional -/

/-- C1: for every variable `x`, expression `e` and postcondition `Post`, the
weakest precondition of the assignment `x := e` is `Post.Replace(x, e)`; for
`b := a + 1` and the postcondition `b < 10` the result dumps as
`((a+1)<10)` (for either sort of the variables). -/
theorem assign_wp_is_replace :
    (∀ (x : Var) (e Post : Expr),
      (Stmt.AssignStmt x e).WeakestPrecondition Post = Post.Replace x e)
    ∧ ((Stmt.AssignStmt (.IntVar "b")
          (.BinaryExpr "+" (.Var (.IntVar "a")) (.Const (.IntConst 1)) false)
        ).WeakestPrecondition
          (.BinaryExpr "<" (.Var (.IntVar "b")) (.Const (.IntConst 10)) true)
        ).dump "" = "((a+1)<10)"
    ∧ ((Stmt.AssignStmt (.BVVar "b")
          (.BinaryExpr "+" (.Var (.BVVar "a")) (.Const (.IntConst 1)) false)
        ).WeakestPrecondition
          (.BinaryExpr "<" (.Var (.BVVar "b")) (.Const (.IntConst 10)) true)
        ).dump "" = "((a+1)<10)" := by
  refine ⟨Stmt.WeakestPrecondition_assign, ?_, ?_⟩
  · rw [Stmt.WeakestPrecondition_assign]
    decide
  · rw [Stmt.WeakestPrecondition_assign]
    decide

/-- C2: the weakest precondition of a sequence `[s1, ..., sn]` is the right
fold `WP(s1, WP(s2, ... WP(sn, Post)))` of the statements' weakest
preconditions, and the empty sequence returns `Post` unchanged. -/
theorem seq_wp_is_right_fold :
    (∀ (ss : List Stmt) (Post : Expr),
      (Stmt.SeqStmt ss).WeakestPrecondition Post
        = ss.foldr (fun s acc => s.WeakestPrecondition acc) Post)
    ∧ (∀ Post : Expr, (Stmt.SeqStmt []).WeakestPrecondition Post = Post) := by
  constructor
  · intro ss Post
    rw [Stmt.WeakestPrecondition_seq, List.foldl_reverse]
  · intro Post
    rw [Stmt.WeakestPrecondition_seq]
    rfl

/-- C3 (what the code builds): the weakest precondition of a conditional is
the tree `(c -> WP(St,Post)) && (!c -> WP(Sf,Post))` in which only the `&&`
node carries `isBool = true`; both `->` nodes and the `!` node are built
with the constructor's default `isBool = false`, so the result differs from
the tree whose four operator nodes are all tagged boolean. -/
theorem cond_wp_tree_flags (c : Expr) (St Sf : Stmt) (Post : Expr) :
    (Stmt.CondStmt c St Sf).WeakestPrecondition Post
      = .BinaryExpr "&&"
          (.BinaryExpr "->" c (St.WeakestPrecondition Post) false)
          (.BinaryExpr "->" (.UnaryExpr "!" c false)
            (Sf.WeakestPrecondition Post) false) true
    ∧ (Stmt.CondStmt c St Sf).WeakestPrecondition Post
      ≠ .BinaryExpr "&&"
          (.BinaryExpr "->" c (St.WeakestPrecondition Post) true)
          (.BinaryExpr "->" (.UnaryExpr "!" c true)
            (Sf.WeakestPrecondition Post) true) true := by
  rw [Stmt.WeakestPrecondition_cond]
  simp

/-- C4: the weakest precondition of a conditional dumps as
`((c->WP(St,P))&&((!c)->WP(Sf,P)))`, and for `c = (1>3)`, two empty
sequences and `P = (y>5)` the text is
`(((1>3)->(y>5))&&((!(1>3))->(y>5)))`. -/
theorem cond_wp_dump :
    (∀ (c : Expr) (St Sf : Stmt) (P : Expr),
      ((Stmt.CondStmt c St Sf).WeakestPrecondition P).dump ""
        = "((" ++ c.dump "" ++ "->" ++ (St.WeakestPrecondition P).dump ""
            ++ ")&&((!" ++ c.dump "" ++ ")->"
            ++ (Sf.WeakestPrecondition P).dump "" ++ "))")
    ∧ ((Stmt.CondStmt
          (.BinaryExpr ">" (.Const (.IntConst 1)) (.Const (.IntConst 3)) true)
          (.SeqStmt []) (.SeqStmt [])).WeakestPrecondition
          (.BinaryExpr ">" (.Var (.IntVar "y")) (.Const (.IntConst 5)) true)
        ).dump "" = "(((1>3)->(y>5))&&((!(1>3))->(y>5)))" := by
  constructor
  · intro c St Sf P
    rw [Stmt.WeakestPrecondition_cond]
    simp only [Expr.dump]
    rw [Expr.dump_eq_append (Sf.WeakestPrecondition P),
      Expr.dump_eq_append c ((_ ++ "(") ++ "!"),
      Expr.dump_eq_append (St.WeakestPrecondition P),
      Expr.dump_eq_append c (("" ++ "(") ++ "(")]
    have h1 : "((" = "(" ++ "(" := by decide
    have h2 : ")&&((!" = ")" ++ "&&" ++ "(" ++ "(" ++ "!" := by decide
    have h3 : ")->" = ")" ++ "->" := by decide
    have h4 : "))" = ")" ++ ")" := by decide
    rw [h1, h2, h3, h4]
    simp only [String.append_assoc, String.empty_append]
  · rw [Stmt.WeakestPrecondition_cond, Stmt.WeakestPrecondition_seq]
    decide

/-- C5: sequencing is associative under the weakest precondition:
`WP(xs ++ ys, P) = WP(xs, WP(ys, P))`, in particular
`WP([A,B,C], P) = WP([A], WP([B], WP([C], P)))`, and `WP([], P) = P`. -/
theorem seq_wp_append :
    (∀ (xs ys : List Stmt) (P : Expr),
      (Stmt.SeqStmt (xs ++ ys)).WeakestPrecondition P
        = (Stmt.SeqStmt xs).WeakestPrecondition
            ((Stmt.SeqStmt ys).WeakestPrecondition P))
    ∧ (∀ (A B C : Stmt) (P : Expr),
      (Stmt.SeqStmt [A, B, C]).WeakestPrecondition P
        = (Stmt.SeqStmt [A]).WeakestPrecondition
            ((Stmt.SeqStmt [B]).WeakestPrecondition
              ((Stmt.SeqStmt [C]).WeakestPrecondition P)))
    ∧ (∀ P : Expr, (Stmt.SeqStmt []).WeakestPrecondition P = P) := by
  refine ⟨?_, ?_, ?_⟩
  · intro xs ys P
    simp only [Stmt.WeakestPrecondition_seq, List.reverse_append,
      List.foldl_append]
  · intro A B C P
    simp only [Stmt.WeakestPrecondition_seq]
    rfl
  · intro P
    rw [Stmt.WeakestPrecondition_seq]
    rfl

/-! ## Substitution -/

mutual
theorem Expr.Replace_of_not_hasVar (x : mm.Var) (e : Expr) :
    ∀ E : Expr, E.hasVar x.Name = false → E.Replace x e = E
  | .Var v, h => by
      have hne : ¬ x.Name = v.Name := by
        intro heq
        simp [Expr.hasVar, heq] at h
      simp [Expr.Replace, hne, Expr.Copy_eq]
  | .Const c, _ => by simp [Expr.Replace]
  | .BinaryExpr Op Left Right b, h => by
      simp only [Expr.hasVar, Bool.or_eq_false_iff] at h
      simp [Expr.Replace, Expr.Replace_of_not_hasVar x e Left h.1,
        Expr.Replace_of_not_hasVar x e Right h.2]
  | .UnaryExpr Op SubExpr b, h => by
      simp only [Expr.hasVar] at h
      simp [Expr.Replace, Expr.Replace_of_not_hasVar x e SubExpr h]
  | .UFExpr FName SubExprs, h => by
      simp only [Expr.hasVar] at h
      simp [Expr.Replace, Expr.ReplaceAll_of_not_hasVar x e SubExprs h]
theorem Expr.ReplaceAll_of_not_hasVar (x : mm.Var) (e : Expr) :
    ∀ Es : List Expr, Expr.hasVarArgs x.Name Es = false →
      Expr.ReplaceAll Es x e = Es
  | [], _ => by simp [Expr.ReplaceAll]
  | E :: Es, h => by
      simp only [Expr.hasVarArgs, Bool.or_eq_false_iff] at h
      simp [Expr.ReplaceAll, Expr.Replace_of_not_hasVar x e E h.1,
        Expr.ReplaceAll_of_not_hasVar x e Es h.2]
end

mutual
theorem Expr.hasVar_Replace (x : mm.Var) (e : Expr)
    (he : e.hasVar x.Name = false) :
    ∀ E : Expr, (E.Replace x e).hasVar x.Name = false
  | .Var v => by
      by_cases hxv : x.Name = v.Name
      · have hr : (Expr.Var v).Replace x e = e := by
          simp [Expr.Replace, hxv, Expr.Copy_eq]
        rw [hr]
        exact he
      · have hvx : ¬ v.Name = x.Name := fun h => hxv h.symm
        simp [Expr.Replace, hxv, Expr.Copy_eq, Expr.hasVar, hvx]
  | .Const c => by simp [Expr.Replace, Expr.hasVar]
  | .BinaryExpr Op Left Right b => by
      simp [Expr.Replace, Expr.hasVar, Expr.hasVar_Replace x e he Left,
        Expr.hasVar_Replace x e he Right]
  | .UnaryExpr Op SubExpr b => by
      simp [Expr.Replace, Expr.hasVar, Expr.hasVar_Replace x e he SubExpr]
  | .UFExpr FName SubExprs => by
      simp [Expr.Replace, Expr.hasVar, Expr.hasVarArgs_ReplaceAll x e he SubExprs]
theorem Expr.hasVarArgs_ReplaceAll (x : mm.Var) (e : Expr)
    (he : e.hasVar x.Name = false) :
    ∀ Es : List Expr, Expr.hasVarArgs x.Name (Expr.ReplaceAll Es x e) = false
  | [] => by simp [Expr.ReplaceAll, Expr.hasVarArgs]
  | E :: Es => by
      simp [Expr.ReplaceAll, Expr.hasVarArgs, Expr.hasVar_Replace x e he E,
        Expr.hasVarArgs_ReplaceAll x e he Es]
end

/-- C6: substitution identity: when no variable named like `x` occurs in
`E`, `E.Replace(x, e)` is structurally equal to `E`; in particular `Replace`
returns a constant itself. -/
theorem replace_identity (E : Expr) (x : Var) (e : Expr)
    (h : E.hasVar x.Name = false) :
    E.Replace x e = E ∧ ∀ c : Const, (Expr.Const c).Replace x e = Expr.Const c :=
  ⟨Expr.Replace_of_not_hasVar x e E h, fun c => by simp [Expr.Replace]⟩

/-- Witness of C6 on `f(y, (z+1))` with `x` replaced by `(x*2)`. -/
theorem replace_identity_witness :
    (Expr.UFExpr "f" [.Var (.IntVar "y"),
        .BinaryExpr "+" (.Var (.BVVar "z")) (.Const (.IntConst 1)) false]
      ).Replace (.IntVar "x")
        (.BinaryExpr "*" (.Var (.IntVar "x")) (.Const (.IntConst 2)) false)
      = Expr.UFExpr "f" [.Var (.IntVar "y"),
        .BinaryExpr "+" (.Var (.BVVar "z")) (.Const (.IntConst 1)) false] :=
  (replace_identity _ (.IntVar "x") _ (by decide)).1

/-- C7: substitution eliminates the variable: when `e` contains no variable
named like `x`, no variable node named like `x` occurs in `E.Replace(x, e)`,
whether under binary or unary operators or among function arguments. -/
theorem replace_eliminates (E : Expr) (x : Var) (e : Expr)
    (he : e.hasVar x.Name = false) :
    (E.Replace x e).hasVar x.Name = false :=
  Expr.hasVar_Replace x e he E

/-- Witness of C7 on `f((!x), (x+y))` with `x` replaced by `(y*2)`. -/
theorem replace_eliminates_witness :
    (Expr.UFExpr "f" [.UnaryExpr "!" (.Var (.IntVar "x")) true,
        .BinaryExpr "+" (.Var (.IntVar "x")) (.Var (.IntVar "y")) false]
      ).hasVar "x" = true
    ∧ ((Expr.UFExpr "f" [.UnaryExpr "!" (.Var (.IntVar "x")) true,
        .BinaryExpr "+" (.Var (.IntVar "x")) (.Var (.IntVar "y")) false]
      ).Replace (.IntVar "x")
        (.BinaryExpr "*" (.Var (.IntVar "y")) (.Const (.IntConst 2)) false)
      ).hasVar "x" = false :=
  ⟨by decide, replace_eliminates _ (.IntVar "x") _ (by decide)⟩

/-! ## Visits and substitution -/

mutual
theorem Expr.forAllVars_eq_foldl {σ : Type} (F : String → σ → σ) :
    ∀ (E : Expr) (s : σ),
      E.forAllVars F s = E.visits.foldl (fun s o => F o.name s) s
  | .Var v, s => by simp [Expr.forAllVars, Expr.visits, Visit.name]
  | .Const c, s => by simp [Expr.forAllVars, Expr.visits]
  | .BinaryExpr Op Left Right b, s => by
      simp [Expr.forAllVars, Expr.visits, Expr.forAllVars_eq_foldl F Left,
        Expr.forAllVars_eq_foldl F Right]
  | .UnaryExpr Op SubExpr b, s => by
      simp [Expr.forAllVars, Expr.visits, Expr.forAllVars_eq_foldl F SubExpr]
  | .UFExpr FName SubExprs, s => by
      simp [Expr.forAllVars, Expr.visits, Visit.name,
        Expr.forAllVarsArgs_eq_foldl F SubExprs]
theorem Expr.forAllVarsArgs_eq_foldl {σ : Type} (F : String → σ → σ) :
    ∀ (Es : List Expr) (s : σ),
      Expr.forAllVarsArgs F Es s
        = (Expr.visitsArgs Es).foldl (fun s o => F o.name s) s
  | [], s => by simp [Expr.forAllVarsArgs, Expr.visitsArgs]
  | E :: Es, s => by
      simp [Expr.forAllVarsArgs, Expr.visitsArgs, Expr.forAllVars_eq_foldl F E,
        Expr.forAllVarsArgs_eq_foldl F Es]
end

theorem foldl_snoc_eq_map {α β : Type} (g : α → β) (l : List α) :
    ∀ init : List β, l.foldl (fun acc o => acc ++ [g o]) init = init ++ l.map g := by
  induction l with
  | nil => intro init; simp
  | cons a l ih => intro init; simp [ih]

theorem Expr.visited_eq (E : Expr) : E.visited = E.visits.map Visit.name := by
  unfold Expr.visited
  rw [Expr.forAllVars_eq_foldl, foldl_snoc_eq_map Visit.name]
  simp

mutual
theorem Expr.visits_Replace (x : mm.Var) (e : Expr) :
    ∀ E : Expr, (E.Replace x e).visits.map Visit.name
      = E.visits.flatMap (Visit.subst x.Name (e.visits.map Visit.name))
  | .Var v => by
      by_cases hxv : x.Name = v.Name
      · simp [Expr.Replace, hxv, Expr.Copy_eq, Expr.visits, Visit.subst]
      · have hvx : ¬ v.Name = x.Name := fun h => hxv h.symm
        simp [Expr.Replace, hxv, Expr.Copy_eq, Expr.visits, Visit.subst, hvx,
          Visit.name]
  | .Const c => by simp [Expr.Replace, Expr.visits]
  | .BinaryExpr Op Left Right b => by
      simp [Expr.Replace, Expr.visits, Expr.visits_Replace x e Left,
        Expr.visits_Replace x e Right]
  | .UnaryExpr Op SubExpr b => by
      simp [Expr.Replace, Expr.visits, Expr.visits_Replace x e SubExpr]
  | .UFExpr FName SubExprs => by
      simp [Expr.Replace, Expr.visits, Visit.name, Visit.subst,
        Expr.visitsArgs_ReplaceAll x e SubExprs]
theorem Expr.visitsArgs_ReplaceAll (x : mm.Var) (e : Expr) :
    ∀ Es : List Expr, (Expr.visitsArgs (Expr.ReplaceAll Es x e)).map Visit.name
      = (Expr.visitsArgs Es).flatMap
          (Visit.subst x.Name (e.visits.map Visit.name))
  | [] => by simp [Expr.ReplaceAll, Expr.visitsArgs]
  | E :: Es => by
      simp [Expr.ReplaceAll, Expr.visitsArgs, Expr.visits_Replace x e E,
        Expr.visitsArgs_ReplaceAll x e Es]
end

/-- C8: substitution is single-pass. Whatever the visitor, `forAllVars`
on `E` makes the calls listed by `E.visits`, in order; on `E.Replace(x, e)`
the names visited are those visited on `E`, where each visit made by a
variable node named like `x` is replaced by the whole sequence visited on
`e` (not substituted again, also when `e` contains `x`) and every other
visit, of another variable or of a function symbol, is kept in place; and
`Var(x).Replace(x, e)` is structurally equal to `e`. -/
theorem replace_single_pass (E : Expr) (x : Var) (e : Expr) :
    (∀ (σ : Type) (F : String → σ → σ) (s : σ),
      E.forAllVars F s = E.visits.foldl (fun s o => F o.name s) s)
    ∧ E.visited = E.visits.map Visit.name
    ∧ (E.Replace x e).visited = E.visits.flatMap (Visit.subst x.Name e.visited)
    ∧ (Expr.Var x).Replace x e = e := by
  refine ⟨fun σ F s => Expr.forAllVars_eq_foldl F E s, Expr.visited_eq E, ?_, ?_⟩
  · rw [Expr.visited_eq, Expr.visited_eq e]
    exact Expr.visits_Replace x e E
  · simp [Expr.Replace, Expr.Copy_eq]

/-! ## Rendering -/

theorem Expr.dumpArgs_eq_commaTerminated :
    ∀ Es : List Expr,
      Expr.dumpArgs Es "" = commaTerminated (Es.map (fun a => a.dump ""))
  | [] => by simp [Expr.dumpArgs, commaTerminated]
  | E :: Es => by
      simp only [Expr.dumpArgs, List.map_cons, commaTerminated]
      rw [Expr.dumpArgs_eq_append, Expr.dumpArgs_eq_commaTerminated Es]

/-- C9: `dump` writes the fully parenthesised rendering: a variable is
written as its name, `BinaryExpr(op, L, R)` as `(` `dump(L)` `op` `dump(R)`
`)` without spaces and `UnaryExpr(op, X)` as `(` `op` `dump(X)` `)`,
whatever the `isBool` hint; `BinaryExpr("+", Var("a"), IntConst(1))` dumps
as `(a+1)`. -/
theorem dump_grammar :
    (∀ (v : Var) (Out : String), (Expr.Var v).dump Out = Out ++ v.Name)
    ∧ (∀ (Op : String) (L R : Expr) (b : Bool) (Out : String),
        (Expr.BinaryExpr Op L R b).dump Out
          = Out ++ ("(" ++ L.dump "" ++ Op ++ R.dump "" ++ ")"))
    ∧ (∀ (Op : String) (X : Expr) (b : Bool) (Out : String),
        (Expr.UnaryExpr Op X b).dump Out
          = Out ++ ("(" ++ Op ++ X.dump "" ++ ")"))
    ∧ (∀ b : Bool,
        (Expr.BinaryExpr "+" (.Var (.IntVar "a")) (.Const (.IntConst 1)) b).dump ""
          = "(a+1)") := by
  refine ⟨?_, ?_, ?_, ?_⟩
  · intro v Out
    simp [Expr.dump]
  · intro Op L R b Out
    simp only [Expr.dump]
    rw [Expr.dump_eq_append R, Expr.dump_eq_append L]
    simp only [String.append_assoc]
  · intro Op X b Out
    simp only [Expr.dump]
    rw [Expr.dump_eq_append X]
    simp only [String.append_assoc]
  · intro b
    cases b <;> decide

/-- C10 (what the code writes): `UFExpr(f, args).dump` writes `f`, `(`,
every argument followed by a comma (the last one too), then the backspace
character U+0008 and `)`. So `f(x)` is written as the six characters
`f(x,` U+0008 `)` and the empty application as `f(` U+0008 `)`: the
separator after the last argument and a control character are part of the
text, which is not `f(x)`, respectively `f()`. -/
theorem ufexpr_dump_trailing_separator :
    (∀ (f : String) (args : List Expr) (Out : String),
      (Expr.UFExpr f args).dump Out
        = Out ++ (f ++ "(" ++ commaTerminated (args.map (fun a => a.dump ""))
            ++ "\x08" ++ ")"))
    ∧ (Expr.UFExpr "f" [.Var (.IntVar "x")]).dump "" = "f(x,\x08)"
    ∧ (Expr.UFExpr "f" [.Var (.IntVar "x")]).dump "" ≠ "f(x)"
    ∧ (Expr.UFExpr "f" []).dump "" = "f(\x08)"
    ∧ (Expr.UFExpr "f" []).dump "" ≠ "f()" := by
  refine ⟨?_, by decide, by decide, by decide, by decide⟩
  intro f args Out
  simp only [Expr.dump]
  rw [Expr.dumpArgs_eq_append, Expr.dumpArgs_eq_commaTerminated]
  simp only [String.append_assoc]

/-! ## Constants -/

theorem toDigitsCore_eq_digits :
    ∀ (fuel n : Nat) (ds : List Char), 0 < n → n < fuel →
      Nat.toDigitsCore 10 fuel n ds
        = (Nat.digits 10 n).reverse.map Nat.digitChar ++ ds := by
  intro fuel
  induction fuel with
  | zero => intro n ds _ h; omega
  | succ fuel ih =>
    intro n ds hpos hlt
    rw [Nat.digits_def' (by decide) hpos]
    simp only [Nat.toDigitsCore]
    by_cases h0 : n / 10 = 0
    · simp [h0]
    · have hq : 0 < n / 10 := Nat.pos_of_ne_zero h0
      have hlt2 : n / 10 < fuel := by omega
      simp only [h0, if_false]
      rw [ih (n / 10) _ hq hlt2]
      simp

theorem toString_nat_eq_decimalNumeral (n : Nat) :
    toString n = decimalNumeral n := by
  show Nat.repr n = decimalNumeral n
  unfold decimalNumeral
  by_cases h : n = 0
  · subst h; rfl
  · simp only [h, if_false, Nat.repr, Nat.toDigits]
    rw [toDigitsCore_eq_digits (n + 1) n [] (Nat.pos_of_ne_zero h) (by omega)]
    simp [List.asString]

theorem toString_int_eq_signedDecimal (v : Int) :
    toString v = signedDecimal v := by
  unfold signedDecimal
  cases v with
  | ofNat m =>
      have hm : ¬ ((m : Int) < 0) := by omega
      have h1 : toString (Int.ofNat m) = toString m := rfl
      rw [h1, toString_nat_eq_decimalNumeral]
      simp [hm]
  | negSucc m =>
      have h1 : toString (Int.negSucc m) = "-" ++ toString (m + 1) := rfl
      rw [h1, toString_nat_eq_decimalNumeral]
      simp [Int.negSucc_lt_zero, Int.natAbs_negSucc]

/-- C11: constants render as the contract says: `IntConst(v)` dumps as the
decimal numeral of `v`, with a leading `-` when `v` is negative (for every
integer, so for every 32-bit one, `INT_MIN` and `INT_MAX` included);
`BVConst(v)` dumps as `BV:` followed by the decimal numeral of `v` (up to
`2^32 - 1` included); `BoolConst` dumps as `true` or `false`. -/
theorem const_dump :
    (∀ (v : Int) (Out : String),
      (Expr.Const (.IntConst v)).dump Out = Out ++ signedDecimal v)
    ∧ (∀ (v : Nat) (Out : String),
      (Expr.Const (.BVConst v)).dump Out = Out ++ ("BV:" ++ decimalNumeral v))
    ∧ (∀ Out : String, (Expr.Const (.BoolConst true)).dump Out = Out ++ "true")
    ∧ (∀ Out : String, (Expr.Const (.BoolConst false)).dump Out = Out ++ "false")
    ∧ (Expr.Const (.IntConst (-2147483648))).dump "" = "-2147483648"
    ∧ (Expr.Const (.IntConst 2147483647)).dump "" = "2147483647"
    ∧ (Expr.Const (.IntConst 0)).dump "" = "0"
    ∧ (Expr.Const (.BVConst 4294967295)).dump "" = "BV:4294967295"
    ∧ (Expr.Const (.BVConst 0)).dump "" = "BV:0" := by
  refine ⟨?_, ?_, ?_, ?_, by decide, by decide, by decide, by decide, by decide⟩
  · intro v Out
    simp only [Expr.dump, Const.dump, toString_int_eq_signedDecimal]
  · intro v Out
    simp only [Expr.dump, Const.dump, toString_nat_eq_decimalNumeral,
      String.append_assoc]
  · intro Out
    simp [Expr.dump, Const.dump]
  · intro Out
    simp [Expr.dump, Const.dump]

/-! ## Visiting order and copies -/

theorem Expr.visitsArgs_eq_flatMap :
    ∀ Es : List Expr, Expr.visitsArgs Es = Es.flatMap Expr.visits
  | [] => by simp [Expr.visitsArgs]
  | E :: Es => by
      simp [Expr.visitsArgs, Expr.visitsArgs_eq_flatMap Es]

mutual
theorem Expr.length_visits :
    ∀ E : Expr, E.visits.length = E.numVarNodes + E.numUFNodes
  | .Var v => by simp [Expr.visits, Expr.numVarNodes, Expr.numUFNodes]
  | .Const c => by simp [Expr.visits, Expr.numVarNodes, Expr.numUFNodes]
  | .BinaryExpr Op Left Right b => by
      simp only [Expr.visits, Expr.numVarNodes, Expr.numUFNodes,
        List.length_append, Expr.length_visits Left, Expr.length_visits Right]
      omega
  | .UnaryExpr Op SubExpr b => by
      simp only [Expr.visits, Expr.numVarNodes, Expr.numUFNodes,
        Expr.length_visits SubExpr]
  | .UFExpr FName SubExprs => by
      simp only [Expr.visits, Expr.numVarNodes, Expr.numUFNodes,
        List.length_cons, Expr.length_visitsArgs SubExprs]
      omega
theorem Expr.length_visitsArgs :
    ∀ Es : List Expr, (Expr.visitsArgs Es).length
      = Expr.numVarNodesArgs Es + Expr.numUFNodesArgs Es
  | [] => by simp [Expr.visitsArgs, Expr.numVarNodesArgs, Expr.numUFNodesArgs]
  | E :: Es => by
      simp only [Expr.visitsArgs, Expr.numVarNodesArgs, Expr.numUFNodesArgs,
        List.length_append, Expr.length_visits E, Expr.length_visitsArgs Es]
      omega
end

/-- C12: `forAllVars` calls the visitor once per occurrence, in left-to-right
pre-order: whatever the visitor, its calls are those of the sequence
`visited`, in order; a variable yields its name, a constant nothing, a
binary node the visits of the left operand and then those of the right, a
unary node those of its operand, an application its function name and then
the visits of its arguments in argument order; nothing is deduplicated, the
number of calls being the number of variable nodes plus the number of
application nodes. -/
theorem forAllVars_order :
    (∀ (σ : Type) (F : String → σ → σ) (E : Expr) (s : σ),
      E.forAllVars F s = E.visited.foldl (fun s n => F n s) s)
    ∧ (∀ v : Var, (Expr.Var v).visited = [v.Name])
    ∧ (∀ c : Const, (Expr.Const c).visited = [])
    ∧ (∀ (Op : String) (L R : Expr) (b : Bool),
        (Expr.BinaryExpr Op L R b).visited = L.visited ++ R.visited)
    ∧ (∀ (Op : String) (X : Expr) (b : Bool),
        (Expr.UnaryExpr Op X b).visited = X.visited)
    ∧ (∀ (f : String) (args : List Expr),
        (Expr.UFExpr f args).visited = f :: args.flatMap Expr.visited)
    ∧ (∀ E : Expr, E.visited.length = E.numVarNodes + E.numUFNodes)
    ∧ (Expr.BinaryExpr "+" (.Var (.IntVar "x"))
        (.UFExpr "f" [.Var (.IntVar "x"), .Var (.BVVar "f")]) false).visited
        = ["x", "f", "x", "f"] := by
  refine ⟨?_, ?_, ?_, ?_, ?_, ?_, ?_, by decide⟩
  · intro σ F E s
    rw [Expr.forAllVars_eq_foldl, Expr.visited_eq, List.foldl_map]
  · intro v
    simp [Expr.visited_eq, Expr.visits, Visit.name]
  · intro c
    simp [Expr.visited_eq, Expr.visits]
  · intro Op L R b
    simp [Expr.visited_eq, Expr.visits]
  · intro Op X b
    simp [Expr.visited_eq, Expr.visits]
  · intro f args
    have hfun : Expr.visited = fun E => E.visits.map Visit.name :=
      funext Expr.visited_eq
    simp [Expr.visited_eq, Expr.visits, Visit.name, Expr.visitsArgs_eq_flatMap,
      hfun, List.map_flatMap]
  · intro E
    rw [Expr.visited_eq, List.length_map, Expr.length_visits]

/-- C13: `Copy` returns a value-identical node: `E.Copy()` is structurally
equal to `E` (same variant, sort of variable, operator, `isBool`, function
name, constant value and children), so it dumps to the same text and
`forAllVars` visits the same names on both. -/
theorem copy_value_identical (E : Expr) :
    E.Copy = E
    ∧ (∀ Name : String, (Expr.Var (.IntVar Name)).Copy = Expr.Var (.IntVar Name)
        ∧ (Expr.Var (.BVVar Name)).Copy = Expr.Var (.BVVar Name))
    ∧ (∀ Out : String, E.Copy.dump Out = E.dump Out)
    ∧ E.Copy.visited = E.visited
    ∧ (∀ (σ : Type) (F : String → σ → σ) (s : σ),
        E.Copy.forAllVars F s = E.forAllVars F s) := by
  refine ⟨Expr.Copy_eq E, fun Name => ⟨rfl, rfl⟩, ?_, ?_, ?_⟩
  · intro Out
    rw [Expr.Copy_eq]
  · rw [Expr.Copy_eq]
  · intro σ F s
    rw [Expr.Copy_eq]

/-! ## Termination and size -/

theorem Stmt.numStmts_lt_of_mem :
    ∀ (ss : List Stmt) (s : Stmt), s ∈ ss → s.numStmts < 1 + Stmt.numStmtsAll ss
  | [], s, h => by simp at h
  | t :: ts, s, h => by
      simp only [Stmt.numStmtsAll]
      rcases List.mem_cons.mp h with h1 | h1
      · subst h1; omega
      · have := Stmt.numStmts_lt_of_mem ts s h1
        omega

theorem Expr.numNodes_lt_of_mem :
    ∀ (Es : List Expr) (E : Expr), E ∈ Es → E.numNodes < 1 + Expr.numNodesArgs Es
  | [], E, h => by simp at h
  | T :: Ts, E, h => by
      simp only [Expr.numNodesArgs]
      rcases List.mem_cons.mp h with h1 | h1
      · subst h1; omega
      · have := Expr.numNodes_lt_of_mem Ts E h1
        omega

theorem Expr.ReplaceAll_eq_map (x : mm.Var) (e : Expr) :
    ∀ Es : List Expr, Expr.ReplaceAll Es x e = Es.map (fun E => E.Replace x e)
  | [] => by simp [Expr.ReplaceAll]
  | E :: Es => by simp [Expr.ReplaceAll, Expr.ReplaceAll_eq_map x e Es]

mutual
theorem Expr.ReplaceWithin_eq (x : mm.Var) (e : Expr) :
    ∀ (E : Expr) (fuel : Nat), E.numNodes ≤ fuel →
      E.ReplaceWithin fuel x e = some (E.Replace x e)
  | .Var v, fuel, h => by
      cases fuel with
      | zero => simp [Expr.numNodes] at h
      | succ fuel => simp [Expr.ReplaceWithin, Expr.Replace]
  | .Const c, fuel, h => by
      cases fuel with
      | zero => simp [Expr.numNodes] at h
      | succ fuel => simp [Expr.ReplaceWithin, Expr.Replace]
  | .BinaryExpr Op Left Right b, fuel, h => by
      simp only [Expr.numNodes] at h
      cases fuel with
      | zero => omega
      | succ fuel =>
          simp [Expr.ReplaceWithin, Expr.Replace,
            Expr.ReplaceWithin_eq x e Left fuel (by omega),
            Expr.ReplaceWithin_eq x e Right fuel (by omega)]
  | .UnaryExpr Op SubExpr b, fuel, h => by
      simp only [Expr.numNodes] at h
      cases fuel with
      | zero => omega
      | succ fuel =>
          simp [Expr.ReplaceWithin, Expr.Replace,
            Expr.ReplaceWithin_eq x e SubExpr fuel (by omega)]
  | .UFExpr FName SubExprs, fuel, h => by
      simp only [Expr.numNodes] at h
      cases fuel with
      | zero => omega
      | succ fuel =>
          simp [Expr.ReplaceWithin, Expr.Replace,
            Expr.mapM_loop_ReplaceWithin_eq x e SubExprs fuel [] (by omega)]
theorem Expr.mapM_loop_ReplaceWithin_eq (x : mm.Var) (e : Expr) :
    ∀ (Es : List Expr) (fuel : Nat) (acc : List Expr),
      Expr.numNodesArgs Es ≤ fuel →
      List.mapM.loop (fun E => E.ReplaceWithin fuel x e) Es acc
        = some (acc.reverse ++ Expr.ReplaceAll Es x e)
  | [], fuel, acc, _ => by simp [List.mapM.loop, Expr.ReplaceAll]
  | E :: Es, fuel, acc, h => by
      simp only [Expr.numNodesArgs] at h
      simp [List.mapM.loop, Expr.ReplaceAll,
        Expr.ReplaceWithin_eq x e E fuel (by omega),
        Expr.mapM_loop_ReplaceWithin_eq x e Es fuel _ (by omega)]
end

theorem Stmt.foldlM_WeakestPreconditionWithin :
    ∀ l : List Stmt,
      (∀ s ∈ l, ∀ Post : Expr, ∃ N : Nat, ∀ fuel : Nat, N ≤ fuel →
        s.WeakestPreconditionWithin fuel Post = some (s.WeakestPrecondition Post)) →
      ∀ Post : Expr, ∃ N : Nat, ∀ fuel : Nat, N ≤ fuel →
        l.foldlM (fun Cur s => Stmt.WeakestPreconditionWithin fuel s Cur) Post
          = some (l.foldl (fun Cur s => s.WeakestPrecondition Cur) Post)
  | [], _, Post => ⟨0, fun fuel _ => by simp⟩
  | a :: l, hl, Post => by
      obtain ⟨N1, h1⟩ := hl a (List.mem_cons_self a l) Post
      obtain ⟨N2, h2⟩ := Stmt.foldlM_WeakestPreconditionWithin l
        (fun s hs => hl s (List.mem_cons_of_mem a hs))
        (a.WeakestPrecondition Post)
      refine ⟨max N1 N2, fun fuel hf => ?_⟩
      have hf1 : N1 ≤ fuel := le_trans (le_max_left N1 N2) hf
      have hf2 : N2 ≤ fuel := le_trans (le_max_right N1 N2) hf
      simp [List.foldlM_cons, h1 fuel hf1, h2 fuel hf2]

mutual
theorem Stmt.WeakestPreconditionWithin_eq :
    ∀ (s : Stmt) (Post : Expr), ∃ N : Nat, ∀ fuel : Nat, N ≤ fuel →
      s.WeakestPreconditionWithin fuel Post = some (s.WeakestPrecondition Post)
  | .AssignStmt x e, Post => by
      refine ⟨Post.numNodes + 1, fun fuel hf => ?_⟩
      cases fuel with
      | zero => omega
      | succ fuel =>
          rw [Stmt.WeakestPrecondition_assign]
          simp only [Stmt.WeakestPreconditionWithin]
          exact Expr.ReplaceWithin_eq x e Post fuel (by omega)
  | .SeqStmt ss, Post => by
      obtain ⟨N, hN⟩ := Stmt.foldlM_WeakestPreconditionWithin ss.reverse
        (fun s hs => Stmt.WeakestPreconditionWithin_eq_of_mem ss s
          (List.mem_reverse.mp hs)) Post
      refine ⟨N + 1, fun fuel hf => ?_⟩
      cases fuel with
      | zero => omega
      | succ fuel =>
          rw [Stmt.WeakestPrecondition_seq]
          simp only [Stmt.WeakestPreconditionWithin]
          exact hN fuel (by omega)
  | .CondStmt c St Sf, Post => by
      obtain ⟨N1, h1⟩ := Stmt.WeakestPreconditionWithin_eq St Post
      obtain ⟨N2, h2⟩ := Stmt.WeakestPreconditionWithin_eq Sf Post
      refine ⟨max N1 N2 + 1, fun fuel hf => ?_⟩
      cases fuel with
      | zero => omega
      | succ fuel =>
          have hf1 : N1 ≤ fuel := le_trans (le_max_left N1 N2) (by omega)
          have hf2 : N2 ≤ fuel := le_trans (le_max_right N1 N2) (by omega)
          rw [Stmt.WeakestPrecondition_cond]
          simp [Stmt.WeakestPreconditionWithin, h1 fuel hf1, h2 fuel hf2]
theorem Stmt.WeakestPreconditionWithin_eq_of_mem :
    ∀ (ss : List Stmt) (s : Stmt), s ∈ ss → ∀ Post : Expr,
      ∃ N : Nat, ∀ fuel : Nat, N ≤ fuel →
        s.WeakestPreconditionWithin fuel Post = some (s.WeakestPrecondition Post)
  | [], s, h => by simp at h
  | t :: ts, s, h => by
      by_cases hst : s = t
      · rw [hst]
        exact Stmt.WeakestPreconditionWithin_eq t
      · have hmem : s ∈ ts := by
          rcases List.mem_cons.mp h with h1 | h1
          · exact absurd h1 hst
          · exact h1
        exact Stmt.WeakestPreconditionWithin_eq_of_mem ts s hmem
end



/-- C16: `WeakestPrecondition` is total: for every statement tree and every
postcondition there is a depth of nested calls within which the method,
the calls of `Replace` included, returns, and what it returns is the weakest
precondition; a larger budget changes nothing. `Replace` returns within a
depth equal to the number of nodes of the expression. With no budget
neither returns, so the budget is what the calls consume. The recursion
descends into strict sub-trees only: each element of a sequence and each
branch of a conditional has fewer statement nodes than the statement, each
operand and argument fewer nodes than the expression. -/
theorem wp_and_replace_total :
    (∀ (s : Stmt) (Post : Expr), ∃ N : Nat, ∀ fuel : Nat, N ≤ fuel →
      s.WeakestPreconditionWithin fuel Post = some (s.WeakestPrecondition Post))
    ∧ (∀ (E : Expr) (x : Var) (e : Expr) (fuel : Nat), E.numNodes ≤ fuel →
      E.ReplaceWithin fuel x e = some (E.Replace x e))
    ∧ (∀ (s : Stmt) (Post : Expr), s.WeakestPreconditionWithin 0 Post = none)
    ∧ (∀ (E : Expr) (x : Var) (e : Expr), E.ReplaceWithin 0 x e = none)
    ∧ (∀ (ss : List Stmt) (s : Stmt), s ∈ ss →
        s.numStmts < (Stmt.SeqStmt ss).numStmts)
    ∧ (∀ (c : Expr) (St Sf : Stmt),
        St.numStmts < (Stmt.CondStmt c St Sf).numStmts
        ∧ Sf.numStmts < (Stmt.CondStmt c St Sf).numStmts)
    ∧ (∀ (Op : String) (L R : Expr) (b : Bool),
        L.numNodes < (Expr.BinaryExpr Op L R b).numNodes
        ∧ R.numNodes < (Expr.BinaryExpr Op L R b).numNodes)
    ∧ (∀ (Op : String) (X : Expr) (b : Bool),
        X.numNodes < (Expr.UnaryExpr Op X b).numNodes)
    ∧ (∀ (f : String) (args : List Expr),
        ∀ a ∈ args, a.numNodes < (Expr.UFExpr f args).numNodes) := by
  refine ⟨Stmt.WeakestPreconditionWithin_eq,
    fun E x e fuel h => Expr.ReplaceWithin_eq x e E fuel h,
    fun s Post => by simp [Stmt.WeakestPreconditionWithin],
    fun E x e => by simp [Expr.ReplaceWithin], ?_, ?_, ?_, ?_, ?_⟩
  · intro ss s h
    simpa [Stmt.numStmts] using Stmt.numStmts_lt_of_mem ss s h
  · intro c St Sf
    simp only [Stmt.numStmts]
    omega
  · intro Op L R b
    simp only [Expr.numNodes]
    omega
  · intro Op X b
    simp only [Expr.numNodes]
    omega
  · intro f args a ha
    simpa [Expr.numNodes] using Expr.numNodes_lt_of_mem args a ha

/-- Witness of C16: `(b < f(b, 1))` has five nodes, and `Replace` of `b` by
`(a + 1)` in it returns within depth five. -/
theorem wp_and_replace_total_witness :
    (Expr.BinaryExpr "<" (.Var (.IntVar "b"))
        (.UFExpr "f" [.Var (.IntVar "b"), .Const (.IntConst 1)]) true).numNodes ≤ 5
    ∧ (Expr.BinaryExpr "<" (.Var (.IntVar "b"))
        (.UFExpr "f" [.Var (.IntVar "b"), .Const (.IntConst 1)]) true
      ).ReplaceWithin 5 (.IntVar "b")
        (.BinaryExpr "+" (.Var (.IntVar "a")) (.Const (.IntConst 1)) false)
      = some ((Expr.BinaryExpr "<" (.Var (.IntVar "b"))
        (.UFExpr "f" [.Var (.IntVar "b"), .Const (.IntConst 1)]) true
      ).Replace (.IntVar "b")
        (.BinaryExpr "+" (.Var (.IntVar "a")) (.Const (.IntConst 1)) false)) :=
  ⟨by decide, wp_and_replace_total.2.1 _ _ _ 5 (by decide)⟩

theorem nestedCond_wp_numNodes (c P : Expr) :
    ∀ n : Nat, 2 ^ n * P.numNodes
      ≤ ((nestedCond c n).WeakestPrecondition P).numNodes
  | 0 => by
      simp [nestedCond, Stmt.WeakestPrecondition_seq]
  | n + 1 => by
      have ih := nestedCond_wp_numNodes c P n
      simp only [nestedCond, Stmt.WeakestPrecondition_cond, Expr.numNodes]
      rw [Nat.pow_succ]
      have h2 : 2 ^ n * 2 * P.numNodes = 2 * (2 ^ n * P.numNodes) := by ring
      omega

theorem nestedCond_numStmts (c : Expr) :
    ∀ n : Nat, (nestedCond c n).numStmts + 1 = 2 ^ (n + 1)
  | 0 => by simp [nestedCond, Stmt.numStmts, Stmt.numStmtsAll]
  | n + 1 => by
      have ih := nestedCond_numStmts c n
      simp only [nestedCond, Stmt.numStmts]
      rw [Nat.pow_succ 2 (n + 1)]
      omega

theorem nestedCond_condDepth (c : Expr) :
    ∀ n : Nat, (nestedCond c n).condDepth = n
  | 0 => by simp [nestedCond, Stmt.condDepth, Stmt.condDepthAll]
  | n + 1 => by
      simp only [nestedCond, Stmt.condDepth, nestedCond_condDepth c n]
      omega

/-- C17: the formula grows exponentially with nested conditionals: with
`S_0` the empty sequence and `S_(k+1) = CondStmt(c, S_k, S_k)`, the weakest
precondition of `S_n` for `P` has at least `2^n` times as many nodes as `P`,
while `S_n` has `2^(n+1) - 1` statement nodes and nesting depth `n`. -/
theorem nested_cond_growth (c P : Expr) (n : Nat) :
    2 ^ n * P.numNodes ≤ ((nestedCond c n).WeakestPrecondition P).numNodes
    ∧ (nestedCond c n).numStmts = 2 ^ (n + 1) - 1
    ∧ (nestedCond c n).condDepth = n := by
  refine ⟨nestedCond_wp_numNodes c P n, ?_, nestedCond_condDepth c n⟩
  have h := nestedCond_numStmts c n
  omega

/-! ## Repeated and self assignment -/

/-- C18: substitution by an expression free of `x` is idempotent: when `e`
contains no variable named like `x`, replacing `x` once more (by any `e2`)
in `E.Replace(x, e)` changes nothing; hence in `x := e2; x := e` the first
assignment is dead for the weakest precondition. -/
theorem replace_idempotent (E : Expr) (x : Var) (e e2 : Expr)
    (he : e.hasVar x.Name = false) :
    (E.Replace x e).Replace x e2 = E.Replace x e
    ∧ (Stmt.SeqStmt [.AssignStmt x e2, .AssignStmt x e]).WeakestPrecondition E
        = (Stmt.AssignStmt x e).WeakestPrecondition E := by
  have h1 : (E.Replace x e).Replace x e2 = E.Replace x e :=
    Expr.Replace_of_not_hasVar x e2 (E.Replace x e) (Expr.hasVar_Replace x e he E)
  refine ⟨h1, ?_⟩
  rw [Stmt.WeakestPrecondition_seq]
  simp only [List.reverse_cons, List.reverse_nil, List.nil_append,
    List.cons_append, List.foldl_cons, List.foldl_nil,
    Stmt.WeakestPrecondition_assign]
  exact h1

/-- Witness of C18: `x := x + 1; x := y * 2` against `f(x) < x`. -/
theorem replace_idempotent_witness :
    (Expr.BinaryExpr "*" (.Var (.IntVar "y")) (.Const (.IntConst 2)) false
      ).hasVar "x" = false
    ∧ (Stmt.SeqStmt [
          .AssignStmt (.IntVar "x")
            (.BinaryExpr "+" (.Var (.IntVar "x")) (.Const (.IntConst 1)) false),
          .AssignStmt (.IntVar "x")
            (.BinaryExpr "*" (.Var (.IntVar "y")) (.Const (.IntConst 2)) false)]
        ).WeakestPrecondition
          (.BinaryExpr "<" (.UFExpr "f" [.Var (.IntVar "x")])
            (.Var (.IntVar "x")) true)
      = (Stmt.AssignStmt (.IntVar "x")
            (.BinaryExpr "*" (.Var (.IntVar "y")) (.Const (.IntConst 2)) false)
        ).WeakestPrecondition
          (.BinaryExpr "<" (.UFExpr "f" [.Var (.IntVar "x")])
            (.Var (.IntVar "x")) true) :=
  ⟨by decide,
    (replace_idempotent _ (.IntVar "x")
      (.BinaryExpr "*" (.Var (.IntVar "y")) (.Const (.IntConst 2)) false)
      (.BinaryExpr "+" (.Var (.IntVar "x")) (.Const (.IntConst 1)) false)
      (by decide)).2⟩

mutual
theorem Expr.Replace_self_of_sameSortAs (x : mm.Var) :
    ∀ P : Expr, P.sameSortAs x = true → P.Replace x (.Var x) = P
  | .Var v, h => by
      simp only [Expr.sameSortAs, decide_eq_true_eq] at h
      by_cases hxv : x.Name = v.Name
      · have hv : v = x := h hxv.symm
        simp [Expr.Replace, hxv, Expr.Copy_eq, hv]
      · simp [Expr.Replace, hxv, Expr.Copy_eq]
  | .Const c, _ => by simp [Expr.Replace]
  | .BinaryExpr Op Left Right b, h => by
      simp only [Expr.sameSortAs, Bool.and_eq_true] at h
      simp [Expr.Replace, Expr.Replace_self_of_sameSortAs x Left h.1,
        Expr.Replace_self_of_sameSortAs x Right h.2]
  | .UnaryExpr Op SubExpr b, h => by
      simp only [Expr.sameSortAs] at h
      simp [Expr.Replace, Expr.Replace_self_of_sameSortAs x SubExpr h]
  | .UFExpr FName SubExprs, h => by
      simp only [Expr.sameSortAs] at h
      simp [Expr.Replace, Expr.ReplaceAll_self_of_sameSortAs x SubExprs h]
theorem Expr.ReplaceAll_self_of_sameSortAs (x : mm.Var) :
    ∀ Es : List Expr, Expr.sameSortAsArgs x Es = true →
      Expr.ReplaceAll Es x (.Var x) = Es
  | [], _ => by simp [Expr.ReplaceAll]
  | E :: Es, h => by
      simp only [Expr.sameSortAsArgs, Bool.and_eq_true] at h
      simp [Expr.ReplaceAll, Expr.Replace_self_of_sameSortAs x E h.1,
        Expr.ReplaceAll_self_of_sameSortAs x Es h.2]
end

mutual
theorem Expr.sameSortAs_Replace_self (x : mm.Var) :
    ∀ P : Expr, (P.Replace x (.Var x)).sameSortAs x = true
  | .Var v => by
      by_cases hxv : x.Name = v.Name
      · simp [Expr.Replace, hxv, Expr.Copy_eq, Expr.sameSortAs]
      · have hvx : ¬ v.Name = x.Name := fun h => hxv h.symm
        simp [Expr.Replace, hxv, Expr.Copy_eq, Expr.sameSortAs, hvx]
  | .Const c => by simp [Expr.Replace, Expr.sameSortAs]
  | .BinaryExpr Op Left Right b => by
      simp [Expr.Replace, Expr.sameSortAs, Expr.sameSortAs_Replace_self x Left,
        Expr.sameSortAs_Replace_self x Right]
  | .UnaryExpr Op SubExpr b => by
      simp [Expr.Replace, Expr.sameSortAs, Expr.sameSortAs_Replace_self x SubExpr]
  | .UFExpr FName SubExprs => by
      simp [Expr.Replace, Expr.sameSortAs,
        Expr.sameSortAsArgs_ReplaceAll_self x SubExprs]
theorem Expr.sameSortAsArgs_ReplaceAll_self (x : mm.Var) :
    ∀ Es : List Expr, Expr.sameSortAsArgs x (Expr.ReplaceAll Es x (.Var x)) = true
  | [] => by simp [Expr.ReplaceAll, Expr.sameSortAsArgs]
  | E :: Es => by
      simp [Expr.ReplaceAll, Expr.sameSortAsArgs,
        Expr.sameSortAs_Replace_self x E,
        Expr.sameSortAsArgs_ReplaceAll_self x Es]
end

/-- C19: `Replace` matches variables by name only, never by sort, so the
self-assignment `x := x` is the identity on postconditions only up to
sort: when every variable node of `P` named like `x` has the sort of `x`,
the weakest precondition is `P` itself; in general every variable node
with the name of `x` becomes a copy of `x` whatever its own sort was (so
all such nodes of the result have the sort of `x`), as for `x` an `IntVar`
and `P` the `BVVar` of the same name. -/
theorem self_assign_wp (x : Var) (P : Expr) :
    (P.sameSortAs x = true →
      (Stmt.AssignStmt x (.Var x)).WeakestPrecondition P = P)
    ∧ (∀ v : Var, v.Name = x.Name →
        (Stmt.AssignStmt x (.Var x)).WeakestPrecondition (.Var v) = .Var x)
    ∧ ((Stmt.AssignStmt x (.Var x)).WeakestPrecondition P).sameSortAs x = true
    ∧ (∀ Name : String,
        (Stmt.AssignStmt (.IntVar Name) (.Var (.IntVar Name))).WeakestPrecondition
            (.Var (.BVVar Name)) = .Var (.IntVar Name)
        ∧ (Stmt.AssignStmt (.IntVar Name) (.Var (.IntVar Name))).WeakestPrecondition
            (.Var (.BVVar Name)) ≠ .Var (.BVVar Name)) := by
  refine ⟨?_, ?_, ?_, ?_⟩
  · intro h
    rw [Stmt.WeakestPrecondition_assign]
    exact Expr.Replace_self_of_sameSortAs x P h
  · intro v hv
    rw [Stmt.WeakestPrecondition_assign]
    simp [Expr.Replace, hv, Expr.Copy_eq]
  · rw [Stmt.WeakestPrecondition_assign]
    exact Expr.sameSortAs_Replace_self x P
  · intro Name
    rw [Stmt.WeakestPrecondition_assign]
    simp [Expr.Replace, Var.Name, Expr.Copy_eq]

/-- Witness of C19: `x := x` with `x` an `IntVar` against `(x + y) < f(x)`,
where `y` is a `BVVar`. -/
theorem self_assign_wp_witness :
    (Expr.BinaryExpr "<"
        (.BinaryExpr "+" (.Var (.IntVar "x")) (.Var (.BVVar "y")) false)
        (.UFExpr "f" [.Var (.IntVar "x")]) true).sameSortAs (.IntVar "x") = true
    ∧ (Stmt.AssignStmt (.IntVar "x") (.Var (.IntVar "x"))).WeakestPrecondition
        (.BinaryExpr "<"
          (.BinaryExpr "+" (.Var (.IntVar "x")) (.Var (.BVVar "y")) false)
          (.UFExpr "f" [.Var (.IntVar "x")]) true)
      = .BinaryExpr "<"
          (.BinaryExpr "+" (.Var (.IntVar "x")) (.Var (.BVVar "y")) false)
          (.UFExpr "f" [.Var (.IntVar "x")]) true :=
  ⟨by decide, (self_assign_wp (.IntVar "x") _).1 (by decide)⟩

/-! ## Translation and the intern table -/

theorem UnorderedMap.index_of_bound (VARS : UnorderedMap) (Name : String)
    (t : CVC4.Expr) (h : VARS Name = some t) : VARS.index Name = (t, VARS) := by
  simp [UnorderedMap.index, h]

theorem UnorderedMap.assign_same (VARS : UnorderedMap) (Name : String)
    (t : CVC4.Expr) : (VARS.assign Name t) Name = some t := by
  simp [UnorderedMap.assign]

theorem UnorderedMap.assign_of_bound (VARS : UnorderedMap) (Name k : String)
    (t u : CVC4.Expr) (hk : VARS k = some u) (hn : VARS Name = none) :
    (VARS.assign Name t) k = some u := by
  have hne : k ≠ Name := by
    intro h
    rw [h, hn] at hk
    exact absurd hk (by simp)
  simp [UnorderedMap.assign, hne, hk]

theorem Expr.Translate_IntVar_unbound (D : DeclaredOnly) (Name : String)
    (EM : CVC4.ExprManager) (VARS : UnorderedMap) (h : VARS Name = none) :
    (Expr.Var (.IntVar Name)).Translate D EM VARS
      = ⟨.mkVar EM.numVars Name .integerType, ⟨EM.numVars + 1⟩,
          VARS.assign Name (.mkVar EM.numVars Name .integerType)⟩ := by
  simp [Expr.Translate, UnorderedMap.find, h, CVC4.ExprManager.mkVar,
    UnorderedMap.index_of_bound _ Name _ (UnorderedMap.assign_same VARS Name _)]

theorem Expr.Translate_IntVar_bound (D : DeclaredOnly) (Name : String)
    (EM : CVC4.ExprManager) (VARS : UnorderedMap) (t : CVC4.Expr)
    (h : VARS Name = some t) :
    (Expr.Var (.IntVar Name)).Translate D EM VARS = ⟨t, EM, VARS⟩ := by
  simp [Expr.Translate, UnorderedMap.find, h,
    UnorderedMap.index_of_bound VARS Name t h]

theorem Expr.Translate_BVVar_unbound (D : DeclaredOnly) (Name : String)
    (EM : CVC4.ExprManager) (VARS : UnorderedMap) (h : VARS Name = none) :
    (Expr.Var (.BVVar Name)).Translate D EM VARS
      = ⟨.mkVar EM.numVars Name (.mkBitVectorType 32), ⟨EM.numVars + 1⟩,
          VARS.assign Name (.mkVar EM.numVars Name (.mkBitVectorType 32))⟩ := by
  simp [Expr.Translate, UnorderedMap.find, h, CVC4.ExprManager.mkVar,
    UnorderedMap.index_of_bound _ Name _ (UnorderedMap.assign_same VARS Name _)]

theorem Expr.Translate_BVVar_bound (D : DeclaredOnly) (Name : String)
    (EM : CVC4.ExprManager) (VARS : UnorderedMap) (t : CVC4.Expr)
    (h : VARS Name = some t) :
    (Expr.Var (.BVVar Name)).Translate D EM VARS = ⟨t, EM, VARS⟩ := by
  simp [Expr.Translate, UnorderedMap.find, h,
    UnorderedMap.index_of_bound VARS Name t h]

/-- C14: variable interning is idempotent: translating `IntVar(x)` with a
table and then again with the resulting table returns the identical solver
term both times; the second translation leaves the table unchanged and
makes no new variable, the term being the one bound to `x` in the table. -/
theorem intvar_interning_idempotent (D : DeclaredOnly) (x : String)
    (EM : CVC4.ExprManager) (T : UnorderedMap) :
    ((Expr.Var (.IntVar x)).Translate D
        ((Expr.Var (.IntVar x)).Translate D EM T).EM
        ((Expr.Var (.IntVar x)).Translate D EM T).VARS).result
      = ((Expr.Var (.IntVar x)).Translate D EM T).result
    ∧ ((Expr.Var (.IntVar x)).Translate D
        ((Expr.Var (.IntVar x)).Translate D EM T).EM
        ((Expr.Var (.IntVar x)).Translate D EM T).VARS).VARS
      = ((Expr.Var (.IntVar x)).Translate D EM T).VARS
    ∧ ((Expr.Var (.IntVar x)).Translate D
        ((Expr.Var (.IntVar x)).Translate D EM T).EM
        ((Expr.Var (.IntVar x)).Translate D EM T).VARS).EM
      = ((Expr.Var (.IntVar x)).Translate D EM T).EM
    ∧ ((Expr.Var (.IntVar x)).Translate D EM T).VARS x
      = some ((Expr.Var (.IntVar x)).Translate D EM T).result := by
  cases h : T x with
  | none =>
      rw [Expr.Translate_IntVar_unbound D x EM T h]
      simp only
      rw [Expr.Translate_IntVar_bound D x _ _ _ (UnorderedMap.assign_same T x _)]
      simp [UnorderedMap.assign_same]
  | some t =>
      rw [Expr.Translate_IntVar_bound D x EM T t h]
      simp only
      rw [Expr.Translate_IntVar_bound D x EM T t h]
      simp [h]

theorem Expr.Translate_UFExpr_unbound (D : DeclaredOnly) (f : String)
    (args : List Expr) (EM : CVC4.ExprManager) (VARS : UnorderedMap)
    (h : VARS f = none)
    (hg : (Expr.TranslateArgs D args ⟨EM.numVars + 1⟩
        (VARS.assign f (.mkVar EM.numVars f
          (.mkFunctionType (List.replicate args.length .integerType)
            .integerType)))).2.2 f
      = some (.mkVar EM.numVars f
          (.mkFunctionType (List.replicate args.length .integerType)
            .integerType))) :
    (Expr.UFExpr f args).Translate D EM VARS
      = ⟨.mkExpr .APPLY_UF
          (.mkVar EM.numVars f
            (.mkFunctionType (List.replicate args.length .integerType)
              .integerType))
          (Expr.TranslateArgs D args ⟨EM.numVars + 1⟩
            (VARS.assign f (.mkVar EM.numVars f
              (.mkFunctionType (List.replicate args.length .integerType)
                .integerType)))).1,
        (Expr.TranslateArgs D args ⟨EM.numVars + 1⟩
            (VARS.assign f (.mkVar EM.numVars f
              (.mkFunctionType (List.replicate args.length .integerType)
                .integerType)))).2.1,
        (Expr.TranslateArgs D args ⟨EM.numVars + 1⟩
            (VARS.assign f (.mkVar EM.numVars f
              (.mkFunctionType (List.replicate args.length .integerType)
                .integerType)))).2.2⟩ := by
  simp [Expr.Translate, UnorderedMap.find, h, CVC4.ExprManager.mkVar,
    UnorderedMap.index_of_bound _ f _ hg]

theorem Expr.Translate_UFExpr_bound (D : DeclaredOnly) (f : String)
    (args : List Expr) (EM : CVC4.ExprManager) (VARS : UnorderedMap)
    (g : CVC4.Expr) (h : VARS f = some g)
    (hg : (Expr.TranslateArgs D args EM VARS).2.2 f = some g) :
    (Expr.UFExpr f args).Translate D EM VARS
      = ⟨.mkExpr .APPLY_UF g (Expr.TranslateArgs D args EM VARS).1,
        (Expr.TranslateArgs D args EM VARS).2.1,
        (Expr.TranslateArgs D args EM VARS).2.2⟩ := by
  simp [Expr.Translate, UnorderedMap.find, h,
    UnorderedMap.index_of_bound _ f _ hg]

mutual
theorem Expr.Translate_keeps (D : DeclaredOnly) :
    ∀ E : Expr, E.operatorFree = true →
      ∀ (EM : CVC4.ExprManager) (VARS : UnorderedMap) (k : String)
        (t : CVC4.Expr), VARS k = some t →
        (E.Translate D EM VARS).VARS k = some t
  | .Var (.IntVar Name), _, EM, VARS, k, t, hk => by
      cases h : VARS Name with
      | none =>
          rw [Expr.Translate_IntVar_unbound D Name EM VARS h]
          exact UnorderedMap.assign_of_bound VARS Name k _ t hk h
      | some u =>
          rw [Expr.Translate_IntVar_bound D Name EM VARS u h]
          exact hk
  | .Var (.BVVar Name), _, EM, VARS, k, t, hk => by
      cases h : VARS Name with
      | none =>
          rw [Expr.Translate_BVVar_unbound D Name EM VARS h]
          exact UnorderedMap.assign_of_bound VARS Name k _ t hk h
      | some u =>
          rw [Expr.Translate_BVVar_bound D Name EM VARS u h]
          exact hk
  | .Const (.IntConst Value), _, EM, VARS, k, t, hk => by
      simpa [Expr.Translate] using hk
  | .Const (.BVConst Value), _, EM, VARS, k, t, hk => by
      simpa [Expr.Translate] using hk
  | .Const (.BoolConst Value), _, EM, VARS, k, t, hk => by
      simpa [Expr.Translate] using hk
  | .BinaryExpr Op Left Right b, hE, _, _, _, _, _ => by
      simp [Expr.operatorFree] at hE
  | .UnaryExpr Op SubExpr b, hE, _, _, _, _, _ => by
      simp [Expr.operatorFree] at hE
  | .UFExpr FName SubExprs, hE, EM, VARS, k, t, hk => by
      simp only [Expr.operatorFree] at hE
      cases h : VARS FName with
      | none =>
          rw [Expr.Translate_UFExpr_unbound D FName SubExprs EM VARS h
            (Expr.TranslateArgs_keeps D SubExprs hE _ _ FName _
              (UnorderedMap.assign_same VARS FName _))]
          exact Expr.TranslateArgs_keeps D SubExprs hE _ _ k t
            (UnorderedMap.assign_of_bound VARS FName k _ t hk h)
      | some g =>
          rw [Expr.Translate_UFExpr_bound D FName SubExprs EM VARS g h
            (Expr.TranslateArgs_keeps D SubExprs hE _ _ FName g h)]
          exact Expr.TranslateArgs_keeps D SubExprs hE _ _ k t hk
theorem Expr.TranslateArgs_keeps (D : DeclaredOnly) :
    ∀ Es : List Expr, Expr.operatorFreeArgs Es = true →
      ∀ (EM : CVC4.ExprManager) (VARS : UnorderedMap) (k : String)
        (t : CVC4.Expr), VARS k = some t →
        (Expr.TranslateArgs D Es EM VARS).2.2 k = some t
  | [], _, EM, VARS, k, t, hk => by
      simpa [Expr.TranslateArgs] using hk
  | E :: Es, hEs, EM, VARS, k, t, hk => by
      simp only [Expr.operatorFreeArgs, Bool.and_eq_true] at hEs
      simp only [Expr.TranslateArgs]
      exact Expr.TranslateArgs_keeps D Es hEs.2 _ _ k t
        (Expr.Translate_keeps D E hEs.1 EM VARS k t hk)
end

theorem Expr.length_TranslateArgs (D : DeclaredOnly) :
    ∀ (Es : List Expr) (EM : CVC4.ExprManager) (VARS : UnorderedMap),
      (Expr.TranslateArgs D Es EM VARS).1.length = Es.length
  | [], EM, VARS => by simp [Expr.TranslateArgs]
  | E :: Es, EM, VARS => by
      simp [Expr.TranslateArgs, Expr.length_TranslateArgs D Es]

mutual
theorem Expr.Translate_keeps_all (D : DeclaredOnly) (hD : D.KeepsBindings) :
    ∀ (E : Expr) (EM : CVC4.ExprManager) (VARS : UnorderedMap) (k : String)
      (t : CVC4.Expr), VARS k = some t →
      (E.Translate D EM VARS).VARS k = some t
  | .Var (.IntVar Name), EM, VARS, k, t, hk => by
      cases h : VARS Name with
      | none =>
          rw [Expr.Translate_IntVar_unbound D Name EM VARS h]
          exact UnorderedMap.assign_of_bound VARS Name k _ t hk h
      | some u =>
          rw [Expr.Translate_IntVar_bound D Name EM VARS u h]
          exact hk
  | .Var (.BVVar Name), EM, VARS, k, t, hk => by
      cases h : VARS Name with
      | none =>
          rw [Expr.Translate_BVVar_unbound D Name EM VARS h]
          exact UnorderedMap.assign_of_bound VARS Name k _ t hk h
      | some u =>
          rw [Expr.Translate_BVVar_bound D Name EM VARS u h]
          exact hk
  | .Const (.IntConst Value), EM, VARS, k, t, hk => by
      simpa [Expr.Translate] using hk
  | .Const (.BVConst Value), EM, VARS, k, t, hk => by
      simpa [Expr.Translate] using hk
  | .Const (.BoolConst Value), EM, VARS, k, t, hk => by
      simpa [Expr.Translate] using hk
  | .BinaryExpr Op Left Right b, EM, VARS, k, t, hk => by
      simp only [Expr.Translate]
      exact hD.1 Op Left Right b EM VARS k t hk
  | .UnaryExpr Op SubExpr b, EM, VARS, k, t, hk => by
      simp only [Expr.Translate]
      exact hD.2 Op SubExpr b EM VARS k t hk
  | .UFExpr FName SubExprs, EM, VARS, k, t, hk => by
      cases h : VARS FName with
      | none =>
          rw [Expr.Translate_UFExpr_unbound D FName SubExprs EM VARS h
            (Expr.TranslateArgs_keeps_all D hD SubExprs _ _ FName _
              (UnorderedMap.assign_same VARS FName _))]
          exact Expr.TranslateArgs_keeps_all D hD SubExprs _ _ k t
            (UnorderedMap.assign_of_bound VARS FName k _ t hk h)
      | some g =>
          rw [Expr.Translate_UFExpr_bound D FName SubExprs EM VARS g h
            (Expr.TranslateArgs_keeps_all D hD SubExprs _ _ FName g h)]
          exact Expr.TranslateArgs_keeps_all D hD SubExprs _ _ k t hk
theorem Expr.TranslateArgs_keeps_all (D : DeclaredOnly) (hD : D.KeepsBindings) :
    ∀ (Es : List Expr) (EM : CVC4.ExprManager) (VARS : UnorderedMap)
      (k : String) (t : CVC4.Expr), VARS k = some t →
      (Expr.TranslateArgs D Es EM VARS).2.2 k = some t
  | [], EM, VARS, k, t, hk => by
      simpa [Expr.TranslateArgs] using hk
  | E :: Es, EM, VARS, k, t, hk => by
      simp only [Expr.TranslateArgs]
      exact Expr.TranslateArgs_keeps_all D hD Es _ _ k t
        (Expr.Translate_keeps_all D hD E EM VARS k t hk)
end

theorem Expr.TranslateArgs_keeps_of (D : DeclaredOnly) (args : List Expr)
    (h : D.KeepsBindings ∨ Expr.operatorFreeArgs args = true)
    (EM : CVC4.ExprManager) (VARS : UnorderedMap) (k : String) (t : CVC4.Expr)
    (hk : VARS k = some t) :
    (Expr.TranslateArgs D args EM VARS).2.2 k = some t := by
  rcases h with hD | hargs
  · exact Expr.TranslateArgs_keeps_all D hD args EM VARS k t hk
  · exact Expr.TranslateArgs_keeps D args hargs EM VARS k t hk

theorem DeclaredOnly.KeepsBindings_unused : DeclaredOnly.unused.KeepsBindings :=
  ⟨fun _ _ _ _ _ _ _ _ hk => hk, fun _ _ _ _ _ _ _ hk => hk⟩

theorem DeclaredOnly.KeepsBindings_viaOperands (D : DeclaredOnly)
    (hD : D.KeepsBindings) : (DeclaredOnly.viaOperands D).KeepsBindings := by
  constructor
  · intro Op Left Right b EM VARS k t hk
    simp only [DeclaredOnly.viaOperands]
    exact Expr.Translate_keeps_all D hD Right _ _ k t
      (Expr.Translate_keeps_all D hD Left EM VARS k t hk)
  · intro Op SubExpr b EM VARS k t hk
    simp only [DeclaredOnly.viaOperands]
    exact Expr.Translate_keeps_all D hD SubExpr EM VARS k t hk

/-- C15: function symbols keep the sort of their first occurrence, for
every argument list: either the two `Translate` methods that `AST.h` only
declares keep the bindings of the table, or no argument contains a binary or
unary node (then nothing is asked of them). When the table has no entry for
`f`, translating `UFExpr(f, args)` binds `f` to a new function variable
whose type takes as many integers as there are `args` at this call site and
returns an integer, and applies it to the translated arguments; when the
table already binds `f`, the entry is left as it is and the cached term is
applied to the freshly translated arguments, as many as there are, whatever
the arity of the cached term. -/
theorem ufexpr_first_occurrence_sort (D : DeclaredOnly) (f : String)
    (args : List Expr) (EM : CVC4.ExprManager) (T : UnorderedMap)
    (hD : D.KeepsBindings ∨ Expr.operatorFreeArgs args = true) :
    (T f = none →
      ((Expr.UFExpr f args).Translate D EM T).VARS f
        = some (.mkVar EM.numVars f
            (.mkFunctionType (List.replicate args.length .integerType)
              .integerType))
      ∧ ((Expr.UFExpr f args).Translate D EM T).result
        = .mkExpr .APPLY_UF
            (.mkVar EM.numVars f
              (.mkFunctionType (List.replicate args.length .integerType)
                .integerType))
            (Expr.TranslateArgs D args ⟨EM.numVars + 1⟩
              (T.assign f (.mkVar EM.numVars f
                (.mkFunctionType (List.replicate args.length .integerType)
                  .integerType)))).1)
    ∧ (∀ g : CVC4.Expr, T f = some g →
      ((Expr.UFExpr f args).Translate D EM T).VARS f = some g
      ∧ ((Expr.UFExpr f args).Translate D EM T).result
        = .mkExpr .APPLY_UF g (Expr.TranslateArgs D args EM T).1)
    ∧ (∀ (EM2 : CVC4.ExprManager) (T2 : UnorderedMap),
      (Expr.TranslateArgs D args EM2 T2).1.length = args.length) := by
  refine ⟨?_, ?_, fun EM2 T2 => Expr.length_TranslateArgs D args EM2 T2⟩
  · intro h
    have hg := Expr.TranslateArgs_keeps_of D args hD ⟨EM.numVars + 1⟩ _ f _
      (UnorderedMap.assign_same T f (.mkVar EM.numVars f
        (.mkFunctionType (List.replicate args.length .integerType)
          .integerType)))
    rw [Expr.Translate_UFExpr_unbound D f args EM T h hg]
    exact ⟨hg, rfl⟩
  · intro g h
    have hg := Expr.TranslateArgs_keeps_of D args hD EM T f g h
    rw [Expr.Translate_UFExpr_bound D f args EM T g h hg]
    exact ⟨hg, rfl⟩

/-- Witness of C15: after `f(x)` has been translated with the empty table,
translating `f(x, y)` with the resulting table applies the unary function
term to two arguments, and so does translating `f((x+1), y)`, whose first
argument has an operator. -/
theorem ufexpr_first_occurrence_sort_witness :
    (DeclaredOnly.viaOperands DeclaredOnly.unused).KeepsBindings
    ∧ ((Expr.UFExpr "f" [.Var (.IntVar "x"), .Var (.IntVar "y")]).Translate
        (DeclaredOnly.viaOperands DeclaredOnly.unused)
        ((Expr.UFExpr "f" [.Var (.IntVar "x")]).Translate
          (DeclaredOnly.viaOperands DeclaredOnly.unused) ⟨0⟩
          UnorderedMap.empty).EM
        ((Expr.UFExpr "f" [.Var (.IntVar "x")]).Translate
          (DeclaredOnly.viaOperands DeclaredOnly.unused) ⟨0⟩
          UnorderedMap.empty).VARS).result
      = .mkExpr .APPLY_UF
          (.mkVar 0 "f" (.mkFunctionType [.integerType] .integerType))
          [.mkVar 1 "x" .integerType, .mkVar 2 "y" .integerType]
    ∧ ((Expr.UFExpr "f"
          [.BinaryExpr "+" (.Var (.IntVar "x")) (.Const (.IntConst 1)) false,
            .Var (.IntVar "y")]).Translate
        (DeclaredOnly.viaOperands DeclaredOnly.unused)
        ((Expr.UFExpr "f" [.Var (.IntVar "x")]).Translate
          (DeclaredOnly.viaOperands DeclaredOnly.unused) ⟨0⟩
          UnorderedMap.empty).EM
        ((Expr.UFExpr "f" [.Var (.IntVar "x")]).Translate
          (DeclaredOnly.viaOperands DeclaredOnly.unused) ⟨0⟩
          UnorderedMap.empty).VARS).result
      = .mkExpr .APPLY_UF
          (.mkVar 0 "f" (.mkFunctionType [.integerType] .integerType))
          [.mkExpr (.operator "+") (.mkVar 1 "x" .integerType)
              [.mkConstRational 1],
            .mkVar 2 "y" .integerType] :=
  ⟨DeclaredOnly.KeepsBindings_viaOperands _ DeclaredOnly.KeepsBindings_unused,
    ((ufexpr_first_occurrence_sort (DeclaredOnly.viaOperands DeclaredOnly.unused)
      "f" [.Var (.IntVar "x"), .Var (.IntVar "y")] _ _
      (Or.inl (DeclaredOnly.KeepsBindings_viaOperands _
        DeclaredOnly.KeepsBindings_unused))).2.1
      (.mkVar 0 "f" (.mkFunctionType [.integerType] .integerType)) rfl).2.trans
      rfl,
    ((ufexpr_first_occurrence_sort (DeclaredOnly.viaOperands DeclaredOnly.unused)
      "f" [.BinaryExpr "+" (.Var (.IntVar "x")) (.Const (.IntConst 1)) false,
        .Var (.IntVar "y")] _ _
      (Or.inl (DeclaredOnly.KeepsBindings_viaOperands _
        DeclaredOnly.KeepsBindings_unused))).2.1
      (.mkVar 0 "f" (.mkFunctionType [.integerType] .integerType)) rfl).2.trans
      rfl⟩

/-- C20: translation only ever extends the intern table (for expressions
built from variables, constants and applications): every name bound before
`Translate` is bound to the identical term afterwards, so a binding of the
resulting table is either the old one or that of a name that was not bound.
The table being keyed by name alone, once `IntVar(x)` has been interned,
translating `BVVar(x)` returns the integer-sorted term and makes no
bit-vector variable, and an application named `x` uses that term as its
function. -/
theorem translate_extends_table (D : DeclaredOnly) (E : Expr)
    (hE : E.operatorFree = true) (EM : CVC4.ExprManager) (T : UnorderedMap) :
    (∀ (k : String) (t : CVC4.Expr), T k = some t →
      (E.Translate D EM T).VARS k = some t)
    ∧ (∀ (k : String) (t : CVC4.Expr), (E.Translate D EM T).VARS k = some t →
      T k = some t ∨ T k = none)
    ∧ (∀ x : String, T x = none →
      ((Expr.Var (.IntVar x)).Translate D EM T).result
        = .mkVar EM.numVars x .integerType
      ∧ (Expr.Var (.BVVar x)).Translate D
          ((Expr.Var (.IntVar x)).Translate D EM T).EM
          ((Expr.Var (.IntVar x)).Translate D EM T).VARS
        = ⟨.mkVar EM.numVars x .integerType,
            ((Expr.Var (.IntVar x)).Translate D EM T).EM,
            ((Expr.Var (.IntVar x)).Translate D EM T).VARS⟩
      ∧ ∀ args : List Expr, Expr.operatorFreeArgs args = true →
          ((Expr.UFExpr x args).Translate D
            ((Expr.Var (.IntVar x)).Translate D EM T).EM
            ((Expr.Var (.IntVar x)).Translate D EM T).VARS).result
          = .mkExpr .APPLY_UF (.mkVar EM.numVars x .integerType)
              (Expr.TranslateArgs D args
                ((Expr.Var (.IntVar x)).Translate D EM T).EM
                ((Expr.Var (.IntVar x)).Translate D EM T).VARS).1) := by
  refine ⟨fun k t hk => Expr.Translate_keeps D E hE EM T k t hk, ?_, ?_⟩
  · intro k t hk
    cases h : T k with
    | none => exact Or.inr rfl
    | some u =>
        have h2 := Expr.Translate_keeps D E hE EM T k u h
        rw [h2] at hk
        exact Or.inl hk
  · intro x hx
    rw [Expr.Translate_IntVar_unbound D x EM T hx]
    refine ⟨rfl, ?_, ?_⟩
    · exact Expr.Translate_BVVar_bound D x _ _ _ (UnorderedMap.assign_same T x _)
    · intro args hargs
      have hb := UnorderedMap.assign_same T x (.mkVar EM.numVars x .integerType)
      have hg := Expr.TranslateArgs_keeps D args hargs ⟨EM.numVars + 1⟩ _ x _ hb
      rw [Expr.Translate_UFExpr_bound D x args _ _ _ hb hg]

/-- Witness of C20: with `x` bound to an integer variable, translating the
application `x(BVVar x, 1, IntVar y)` leaves that binding in place. -/
theorem translate_extends_table_witness :
    (Expr.UFExpr "x" [.Var (.BVVar "x"), .Const (.IntConst 1),
        .Var (.IntVar "y")]).operatorFree = true
    ∧ ((Expr.UFExpr "x" [.Var (.BVVar "x"), .Const (.IntConst 1),
        .Var (.IntVar "y")]).Translate DeclaredOnly.unused ⟨1⟩
        (UnorderedMap.empty.assign "x" (.mkVar 0 "x" .integerType))).VARS "x"
      = some (.mkVar 0 "x" .integerType) :=
  ⟨by decide,
    (translate_extends_table DeclaredOnly.unused _ (by decide) ⟨1⟩
      (UnorderedMap.empty.assign "x" (.mkVar 0 "x" .integerType))).1 "x" _ rfl⟩

end mm
